import Mathlib

/-!
Shallow embedding of the `worker/uniter/relation` package: persistent local
storage of a unit's relation state.  The Go source keeps, per relation, an
in-memory `State` (relation id, member units with their last change version,
and an optional changed-pending unit) mirrored to an on-disk directory with
one small YAML record file per member unit.

Modelling conventions:
  * Go `int` is modelled as `Int`; Go `map[string]int` as an association list
    `List (String × Int)` with Go-map update/delete semantics (replace the
    existing key or append; maps never hold duplicate keys).
  * The `nil` members map (the torn-down sentinel) is the `none` of
    `Option (List (String × Int))`.
  * A unit record file is modelled as its parsed YAML content `DiskInfo`
    (`change-version` is a pointer in the source, hence `Option Int`).
  * The on-disk directory owned by a `StateDir` is modelled inside it:
    `none` when the directory does not exist, `some files` when it does.
  * OS-level failure modes that the code handles explicitly are modelled
    (removing a non-empty directory fails; writing a file into a missing
    directory fails; removing an absent file or directory reports
    `IsNotExist`, which the code tolerates).  Arbitrary I/O faults
    (permissions, disk full) and path quirks of pathological names are out
    of the model.  The Go runtime panic on assigning into a nil map (after a
    "joined"/"changed" file write when `Members` is nil) is modelled as the
    error `WriteError.nilMembersPanic`, with the file already written.
-/

namespace Relation

/-! ### Association lists with Go map semantics -/

/-- Lookup of a key in an association list (Go map read). -/
def listLookup {κ α : Type} [DecidableEq κ] : List (κ × α) → κ → Option α
  | [], _ => none
  | p :: rest, k => if p.1 = k then some p.2 else listLookup rest k

/-- Go map assignment: replace the first entry with the key, else append. -/
def updateKey {κ α : Type} [DecidableEq κ] : List (κ × α) → κ → α → List (κ × α)
  | [], k, v => [(k, v)]
  | p :: rest, k, v => if p.1 = k then (k, v) :: rest else p :: updateKey rest k v

/-- Go map delete: remove the entries with the key (a map holds at most one). -/
def eraseKey {κ α : Type} [DecidableEq κ] : List (κ × α) → κ → List (κ × α)
  | [], _ => []
  | p :: rest, k => if p.1 = k then eraseKey rest k else p :: eraseKey rest k

/-- The keys of an association list are pairwise distinct (true of a Go map). -/
def keysNodup {κ α : Type} (l : List (κ × α)) : Prop := (l.map Prod.fst).Nodup

/-! ### Go string and number primitives used by the package -/

/-- ASCII decimal digit test, as used by `strconv` parsing. -/
def isDigitChar (c : Char) : Bool := decide (48 ≤ c.toNat ∧ c.toNat ≤ 57)

/-- Numeric value of an ASCII digit. -/
def digitVal (c : Char) : Nat := c.toNat - 48

/-- Value of a big-endian digit string. -/
def digitsValue (cs : List Char) : Nat := cs.foldl (fun a c => a * 10 + digitVal c) 0

/-- Largest value of Go's 64-bit `int`. -/
def maxInt64 : Nat := 9223372036854775807

/-- Absolute value of the smallest Go 64-bit `int`. -/
def minInt64Abs : Nat := 9223372036854775808

/-- Parse a non-empty all-digit string; `none` otherwise. -/
def parseDigits (cs : List Char) : Option Nat :=
  if cs.isEmpty then none
  else if cs.all isDigitChar then some (digitsValue cs) else none

/-- Negated value of parsed digits, subject to the `int64` lower bound. -/
def atoiNeg : Option Nat → Option Int
  | some n => if n ≤ minInt64Abs then some (-(n : Int)) else none
  | none => none

/-- Value of parsed digits, subject to the `int64` upper bound. -/
def atoiPos : Option Nat → Option Int
  | some n => if n ≤ maxInt64 then some ((n : Int)) else none
  | none => none

/-- Go `strconv.Atoi`: optional sign, then decimal digits, 64-bit range check. -/
def goAtoiL (cs : List Char) : Option Int :=
  match cs with
  | [] => none
  | c :: rest =>
    if c = '-' then atoiNeg (parseDigits rest)
    else if c = '+' then atoiPos (parseDigits rest)
    else atoiPos (parseDigits cs)

/-- Go `strconv.Atoi` on a `String`. -/
def goAtoi (s : String) : Option Int := goAtoiL s.data

/-- The ASCII character of a decimal digit. -/
def digitChar : Nat → Char
  | 0 => '0' | 1 => '1' | 2 => '2' | 3 => '3' | 4 => '4'
  | 5 => '5' | 6 => '6' | 7 => '7' | 8 => '8' | 9 => '9'
  | _ => '*'

/-- Little-endian digit characters of a natural number, computed with
explicit fuel so that it reduces inside the kernel. -/
def natCharsL : Nat → Nat → List Char
  | 0, _ => []
  | fuel + 1, n => if n = 0 then [] else digitChar (n % 10) :: natCharsL fuel (n / 10)

/-- Big-endian digit string of a natural number (empty for 0). -/
def natChars (n : Nat) : List Char := (natCharsL n n).reverse

/-- Go `strconv.Itoa`: decimal representation, `-` sign for negatives. -/
def goItoa (i : Int) : String :=
  if i < 0 then ⟨'-' :: natChars i.natAbs⟩
  else if i = 0 then ⟨['0']⟩
  else ⟨natChars i.natAbs⟩

/-- Go `strings.Replace(s, "/", "-", 1)`: replace the first slash by a dash. -/
def replaceFirstSlash : List Char → List Char
  | [] => []
  | c :: cs => if c = '/' then '-' :: cs else c :: replaceFirstSlash cs

/-- The record file name of a unit: `service/3` is stored as `service-3`. -/
def fileNameOf (u : String) : String := ⟨replaceFirstSlash u.data⟩

/-- Go `strings.LastIndex(name, "-")` driven split: `some (before, after)`
for the last dash, `none` when the string has no dash. -/
def splitAtLastDash : List Char → Option (List Char × List Char)
  | [] => none
  | c :: cs =>
    match splitAtLastDash cs with
    | some (s, n) => some (c :: s, n)
    | none => if c = '-' then some ([], cs) else none

/-- Split a string at its first slash: `some (before, after)`, else `none`. -/
def splitAtFirstSlash : List Char → Option (List Char × List Char)
  | [] => none
  | c :: cs =>
    if c = '/' then some ([], cs)
    else (splitAtFirstSlash cs).map (fun p => (c :: p.1, p.2))

/-- A well-formed unit name per the `<service>/<unitNumber>` naming rule of
the package: the part after the first slash is a non-empty decimal number in
`int` range (so `strconv.Atoi` accepts it on reload). -/
def wellFormedUnitL (cs : List Char) : Bool :=
  match splitAtFirstSlash cs with
  | none => false
  | some (_, n) => !n.isEmpty && n.all isDigitChar && decide (digitsValue n ≤ maxInt64)

/-- Well-formedness of a `String` unit name. -/
def wellFormedUnit (u : String) : Bool := wellFormedUnitL u.data

/-! ### The data model: hook events and relation state -/

/-- The relation hook kinds consumed by this package (`hook.Kind` has further
kinds, none of which reach this package's `Validate`/`Write`). -/
inductive HookKind : Type
  | relationJoined
  | relationChanged
  | relationDeparted
  | relationBroken
deriving DecidableEq

/-- The fields of `hook.Info` read by this package. -/
structure HookInfo : Type where
  Kind : HookKind
  RelationId : Int
  RemoteUnit : String
  ChangeVersion : Int
deriving DecidableEq

/-- A `State` describes the state of a relation.  `Members = none` is the Go
nil map, the torn-down sentinel. -/
structure State : Type where
  RelationId : Int
  Members : Option (List (String × Int))
  ChangedPending : String
deriving DecidableEq

/-- The distinct error conditions of `State.Validate`, with the data each
`fmt.Errorf` formats. -/
inductive ValidationError : Type
  | wrongRelation (expected got : Int)
  | relationAlreadyBroken
  | unitsStillPresent
  | pendingChangeRequired (unit : String)
  | alreadyJoined
  | notJoined
deriving DecidableEq

/-- The function `Validate` returns an error if the supplied `hook.Info` does not
represent a valid change to the relation state (direct translation of the
source's check sequence). -/
def State.Validate (s : State) (hi : HookInfo) : Except ValidationError Unit :=
  if hi.RelationId ≠ s.RelationId then
    .error (.wrongRelation s.RelationId hi.RelationId)
  else
    match s.Members with
    | none => .error .relationAlreadyBroken
    | some m =>
      if hi.Kind = .relationBroken then
        if m.isEmpty then .ok () else .error .unitsStillPresent
      else if s.ChangedPending ≠ "" then
        if hi.RemoteUnit ≠ s.ChangedPending ∨ hi.Kind ≠ .relationChanged then
          .error (.pendingChangeRequired s.ChangedPending)
        else .ok ()
      else if (listLookup m hi.RemoteUnit).isSome ∧ hi.Kind = .relationJoined then
        .error .alreadyJoined
      else if ¬(listLookup m hi.RemoteUnit).isSome ∧ hi.Kind ≠ .relationJoined then
        .error .notJoined
      else .ok ()

/-! ### The filesystem-backed state directory -/

/-- The record `diskInfo` defines the relation unit data serialization: the parsed
content of one unit record file.  `change-version` is a pointer field in
the source, so a file may lack it. -/
structure DiskInfo : Type where
  changeVersion : Option Int
  changedPending : Bool
deriving DecidableEq

/-- A `StateDir` is a filesystem-backed representation of the state of a
relation: the cached `State` plus the directory it mirrors.  `dir = none`
models "the directory does not exist". -/
structure StateDir : Type where
  dir : Option (List (String × DiskInfo))
  state : State
deriving DecidableEq

/-- Errors of `StateDir.Write` representable inside the model. -/
inductive WriteError : Type
  | dirNotEmpty
  | dirMissing
  | nilMembersPanic
deriving DecidableEq

/-- The operation `Write` records the relation state change in `hi`: the new `StateDir`
(disk and cache) together with the error, if any, of the attempt.  Direct
translation of the source: on an error the cache is left unchanged; in the
nil-map panic case the record file has already been written when the Go
code crashes, so the disk component carries the new file. -/
def StateDir.Write (d : StateDir) (hi : HookInfo) : StateDir × Option WriteError :=
  match hi.Kind with
  | .relationBroken =>
    match d.dir with
    | some (_ :: _) => (d, some .dirNotEmpty)
    | _ => ({ dir := none, state := { d.state with Members := none } }, none)
  | .relationDeparted =>
    ({ dir := d.dir.map (fun fs => eraseKey fs (fileNameOf hi.RemoteUnit)),
       state := { d.state with
                  Members := d.state.Members.map (fun m => eraseKey m hi.RemoteUnit) } },
     none)
  | k =>
    match d.dir with
    | none => (d, some .dirMissing)
    | some fs =>
      let di : DiskInfo := ⟨some hi.ChangeVersion, decide (k = .relationJoined)⟩
      let fs' := updateKey fs (fileNameOf hi.RemoteUnit) di
      match d.state.Members with
      | none => ({ dir := some fs', state := d.state }, some .nilMembersPanic)
      | some m =>
        ({ dir := some fs',
           state := { d.state with
                      Members := some (updateKey m hi.RemoteUnit hi.ChangeVersion),
                      ChangedPending :=
                        if k = .relationJoined then hi.RemoteUnit else "" } },
         none)

/-- The operation `Ensure` creates the directory if it does not already exist. -/
def StateDir.Ensure (d : StateDir) : StateDir :=
  { d with dir := some (d.dir.getD []) }

/-- The `StateDir` a fresh `ReadStateDir` builds before looking at the disk:
relation id set, empty non-nil members, no pending unit. -/
def freshStateDir (relationId : Int) : StateDir :=
  ⟨none, ⟨relationId, some [], ""⟩⟩

/-- Load errors representable inside the model. -/
inductive LoadError : Type
  | notADirectory (name : String)
  | missingChangeVersion (name : String)
  | duplicatePending (pending unitName : String)
deriving DecidableEq

/-- The directory-scan loop of `ReadStateDir`: fold the entries, skipping
names without a dash-integer suffix, requiring `change-version`, and
rejecting a second `changed-pending` flag.  Accumulates the members map and
the pending unit. -/
def loadEntries : List (String × DiskInfo) → List (String × Int) → String →
    Except LoadError (List (String × Int) × String)
  | [], m, pend => .ok (m, pend)
  | (name, info) :: rest, m, pend =>
    match splitAtLastDash name.data with
    | none => loadEntries rest m pend
    | some (svc, unitId) =>
      match goAtoiL unitId with
      | none => loadEntries rest m pend
      | some _ =>
        -- unitName := svcName + "/" + unitId
        let unitName : String := ⟨svc ++ '/' :: unitId⟩
        match info.changeVersion with
        | none => .error (.missingChangeVersion name)
        | some v =>
          let m' := updateKey m unitName v
          if info.changedPending then
            if pend ≠ "" then .error (.duplicatePending pend unitName)
            else loadEntries rest m' unitName
          else loadEntries rest m' pend

/-- The core of `ReadStateDir`, given the contents of the relation's subdirectory
(`none` when it does not exist): no prior history is a fresh state, not an
error. -/
def readStateDirAux (dir : Option (List (String × DiskInfo))) (relationId : Int) :
    Except LoadError StateDir :=
  match dir with
  | none => .ok (freshStateDir relationId)
  | some files =>
    (loadEntries files [] "").map fun p =>
      ⟨some files, ⟨relationId, some p.1, p.2⟩⟩

/-- An immediate entry of the root path: either a plain file or a relation
subdirectory with its record files. -/
inductive RootEntry : Type
  | file
  | subdir (files : List (String × DiskInfo))
deriving DecidableEq

/-- The loader `ReadStateDir` loads a `StateDir` from the subdirectory of the root
named `strconv.Itoa relationId`.  The root is `none` when it does not exist;
a plain file of that name makes the directory listing fail. -/
def ReadStateDir (root : Option (List (String × RootEntry))) (relationId : Int) :
    Except LoadError StateDir :=
  match root with
  | none => readStateDirAux none relationId
  | some entries =>
    match listLookup entries (goItoa relationId) with
    | none => readStateDirAux none relationId
    | some .file => .error (.notADirectory (goItoa relationId))
    | some (.subdir files) => readStateDirAux (some files) relationId

/-- The enumeration loop of `ReadAllStateDirs` over the immediate entries of
the root: a name that `strconv.Atoi` rejects is skipped, otherwise the
relation is loaded from the full root and any load error aborts the bulk
operation. -/
def readAllGo (entries : List (String × RootEntry)) :
    List (String × RootEntry) → List (Int × StateDir) →
    Except LoadError (List (Int × StateDir))
  | [], acc => .ok acc
  | (name, _) :: rest, acc =>
    match goAtoi name with
    | none => readAllGo entries rest acc
    | some relationId =>
      match ReadStateDir (some entries) relationId with
      | .error e => .error e
      | .ok d => readAllGo entries rest (updateKey acc relationId d)

/-- The bulk loader `ReadAllStateDirs` loads every `StateDir` persisted directly inside the
root path; a missing root is an empty result, not an error. -/
def ReadAllStateDirs (root : Option (List (String × RootEntry))) :
    Except LoadError (List (Int × StateDir)) :=
  match root with
  | none => .ok []
  | some entries => readAllGo entries entries []

/-! ### Driving a relation: validate, then write -/

/-- Result of feeding a list of events through validate-then-write. -/
inductive RunOutcome : Type
  | ok (d : StateDir)
  | invalid (v : ValidationError)
  | failed (w : WriteError)
deriving DecidableEq

/-- Whether a run ended in a validation error. -/
def RunOutcome.isInvalidB : RunOutcome → Bool
  | .invalid _ => true
  | _ => false

/-- Apply `Validate` followed by `Write` for each event in order, stopping
at the first validation or write error. -/
def runVW : StateDir → List HookInfo → RunOutcome
  | d, [] => .ok d
  | d, e :: es =>
    match d.state.Validate e with
    | .error v => .invalid v
    | .ok _ =>
      match d.Write e with
      | (d', none) => runVW d' es
      | (_, some w) => .failed w

/-- The state directory an external loop starts from for a relation with no
prior history: a fresh `StateDir` after `Ensure`. -/
def startDir (relationId : Int) : StateDir := (freshStateDir relationId).Ensure

/-! ### The abstract event protocol of the specification

Modelled from the spec: §4.1's event protocol.  Per unit: join, then the
mandatory immediate "changed" (while a unit is changed-pending no other
event of any unit is legal), then arbitrary further "changed"/"departed";
relation-wide: teardown only once membership is empty, and it is terminal.
These definitions follow the specification's words and exist only to be
compared with the code's `Validate`/`Write`. -/
inductive PState : Type
  | active (mem : List String) (pend : Option String)
  | torn
deriving DecidableEq

/-- One step of the §4.1 protocol. -/
def protoStep (rid : Int) (p : PState) (e : HookInfo) : Option PState :=
  if e.RelationId ≠ rid then none
  else
    match p with
    | .torn => none
    | .active mem pend =>
      match e.Kind, pend with
      | .relationBroken, _ => if mem = [] then some .torn else none
      | .relationJoined, none =>
        if e.RemoteUnit ∈ mem then none
        else some (.active (e.RemoteUnit :: mem) (some e.RemoteUnit))
      | .relationChanged, some u =>
        if e.RemoteUnit = u then some (.active mem none) else none
      | .relationChanged, none =>
        if e.RemoteUnit ∈ mem then some (.active mem none) else none
      | .relationDeparted, none =>
        if e.RemoteUnit ∈ mem then some (.active (mem.erase e.RemoteUnit) none) else none
      | _, some _ => none

/-- Run the §4.1 protocol over a list of events. -/
def protoRun (rid : Int) : PState → List HookInfo → Option PState
  | p, [] => some p
  | p, e :: es =>
    match protoStep rid p e with
    | none => none
    | some p' => protoRun rid p' es

/-- A sequence of events is valid under §4.1's protocol when the protocol
machine accepts it from the initial empty relation state. -/
def ProtocolValid (rid : Int) (es : List HookInfo) : Prop :=
  (protoRun rid (.active [] none) es).isSome

/-! ### Equality of reconstructed and cached states -/

/-- Same members map contents: both nil, or extensionally equal key sets
checked from either side. -/
def membersEquivB : Option (List (String × Int)) → Option (List (String × Int)) → Bool
  | none, none => true
  | some m1, some m2 =>
    m1.all (fun p => decide (listLookup m2 p.1 = listLookup m1 p.1)) &&
    m2.all (fun p => decide (listLookup m1 p.1 = listLookup m2 p.1))
  | _, _ => false

/-- Equality of relation states as the spec's round-trip property reads it:
same relation id, same members map contents, same changed-pending unit. -/
def State.equivB (s1 s2 : State) : Bool :=
  decide (s1.RelationId = s2.RelationId) &&
  decide (s1.ChangedPending = s2.ChangedPending) &&
  membersEquivB s1.Members s2.Members

/-- The root path as seen again after a run: the relation's directory (when
it exists) filed under its decimal name. -/
def mkRoot (relationId : Int) : Option (List (String × DiskInfo)) →
    Option (List (String × RootEntry))
  | none => some []
  | some fs => some [(goItoa relationId, .subdir fs)]

/-- Reloading from the directory a run produced yields a state equal to the
cached one. -/
def reloadEquiv (relationId : Int) (d : StateDir) : Bool :=
  match ReadStateDir (mkRoot relationId d.dir) relationId with
  | .ok dL => State.equivB dL.state d.state
  | .error _ => false

/-- A file name qualifies as a unit record: a dash-integer suffix. -/
def entryMatches (p : String × DiskInfo) : Bool :=
  match splitAtLastDash p.1.data with
  | none => false
  | some q => (goAtoiL q.2).isSome

/-- Whether an `Except` is an error. -/
def isErrorB {ε α : Type} : Except ε α → Bool
  | .error _ => true
  | .ok _ => false

/-- Decidable equality of `Except` values, for concrete evaluation. -/
instance {ε α : Type} [DecidableEq ε] [DecidableEq α] : DecidableEq (Except ε α) :=
  fun a b =>
    match a, b with
    | .error e1, .error e2 =>
      if h : e1 = e2 then .isTrue (by rw [h])
      else .isFalse (by intro hh; cases hh; exact h rfl)
    | .ok x, .ok y =>
      if h : x = y then .isTrue (by rw [h])
      else .isFalse (by intro hh; cases hh; exact h rfl)
    | .error _, .ok _ => .isFalse (by intro hh; cases hh)
    | .ok _, .error _ => .isFalse (by intro hh; cases hh)

instance (rid : Int) (es : List HookInfo) : Decidable (ProtocolValid rid es) := by
  unfold ProtocolValid; infer_instance

/-- A root entry whose name `strconv.Atoi` accepts. -/
def parsesB (p : String × RootEntry) : Bool := (goAtoi p.1).isSome

/-- Simulation invariant between a protocol state and a concrete state
directory: the cached members have exactly the protocol's member set, the
changed-pending unit matches, the directory exists, and every record file
belongs to a current member. -/
def SimC4 (rid : Int) : PState → StateDir → Prop
  | .torn, _ => True
  | .active mem pend, d =>
    ∃ fs m, d.dir = some fs ∧ d.state.Members = some m ∧
      d.state.RelationId = rid ∧
      mem.Nodup ∧
      (∀ u, (listLookup m u).isSome ↔ u ∈ mem) ∧
      (match pend with
       | none => d.state.ChangedPending = ""
       | some u => d.state.ChangedPending = u ∧ u ∈ mem) ∧
      (∀ name, (listLookup fs name).isSome → ∃ u, (listLookup m u).isSome ∧ name = fileNameOf u)

/-- The unit name a record file name reconstructs to (only meaningful for
names with a dash-integer suffix). -/
def unitOfName (name : String) : String :=
  match splitAtLastDash name.data with
  | some q => ⟨q.1 ++ '/' :: q.2⟩
  | none => name

/-- Round-trip invariant of a state directory produced by a run of validated
writes with well-formed unit names: cache and disk determine each other, one
record file per member, pending flag exactly on the changed-pending unit. -/
def RTInv (rid : Int) (d : StateDir) : Prop :=
  ∃ fs m, d.dir = some fs ∧ d.state.Members = some m ∧
    d.state.RelationId = rid ∧
    keysNodup fs ∧ keysNodup m ∧
    (∀ u v, listLookup m u = some v → wellFormedUnit u = true ∧
      listLookup fs (fileNameOf u) =
        some ⟨some v, decide (u = d.state.ChangedPending)⟩) ∧
    (∀ name di, listLookup fs name = some di → ∃ u v, wellFormedUnit u = true ∧
      name = fileNameOf u ∧ listLookup m u = some v ∧
      di = ⟨some v, decide (u = d.state.ChangedPending)⟩) ∧
    (d.state.ChangedPending = "" ∨
      ∃ v, listLookup m d.state.ChangedPending = some v)

/-- A record file as left on disk by a run of validated writes: the file of
a well-formed unit, holding its change version, flagged exactly when the
unit is the changed-pending unit `P`. -/
def entryGoodFor (P : String) (p : String × DiskInfo) : Prop :=
  ∃ u v, wellFormedUnit u = true ∧ p.1 = fileNameOf u ∧
    p.2 = ⟨some v, decide (u = P)⟩

/-- The members map the directory-scan loop accumulates. -/
def loadFold (fs : List (String × DiskInfo)) (acc : List (String × Int)) :
    List (String × Int) :=
  fs.foldl (fun a p => updateKey a (unitOfName p.1) (p.2.changeVersion.getD 0)) acc


/-! ### Association list lemmas -/

theorem listLookup_updateKey_self {κ α : Type} [DecidableEq κ]
    (l : List (κ × α)) (k : κ) (v : α) : listLookup (updateKey l k v) k = some v := by
  induction l with
  | nil => simp [updateKey, listLookup]
  | cons p rest ih =>
    by_cases h : p.1 = k
    · simp [updateKey, listLookup, h]
    · simp [updateKey, listLookup, h, ih]

theorem listLookup_updateKey_ne {κ α : Type} [DecidableEq κ]
    (l : List (κ × α)) (k k' : κ) (v : α) (h : k' ≠ k) :
    listLookup (updateKey l k v) k' = listLookup l k' := by
  have hk : ¬k = k' := fun hh => h hh.symm
  induction l with
  | nil => simp [updateKey, listLookup, hk]
  | cons p rest ih =>
    by_cases hp : p.1 = k
    · have hp' : ¬p.1 = k' := by rw [hp]; exact hk
      simp [updateKey, listLookup, hp, hk, hp']
    · simp only [updateKey, hp, if_false, listLookup]
      by_cases hq : p.1 = k' <;> simp [hq, ih]

theorem updateKey_idem {κ α : Type} [DecidableEq κ]
    (l : List (κ × α)) (k : κ) (v : α) :
    updateKey (updateKey l k v) k v = updateKey l k v := by
  induction l with
  | nil => simp [updateKey]
  | cons p rest ih =>
    by_cases h : p.1 = k
    · simp [updateKey, h]
    · simp [updateKey, h, ih]

theorem updateKey_ne_nil {κ α : Type} [DecidableEq κ]
    (l : List (κ × α)) (k : κ) (v : α) : updateKey l k v ≠ [] := by
  cases l with
  | nil => simp [updateKey]
  | cons p rest =>
    by_cases h : p.1 = k <;> simp [updateKey, h]

theorem eraseKey_idem {κ α : Type} [DecidableEq κ]
    (l : List (κ × α)) (k : κ) : eraseKey (eraseKey l k) k = eraseKey l k := by
  induction l with
  | nil => simp [eraseKey]
  | cons p rest ih =>
    by_cases h : p.1 = k
    · simp [eraseKey, h, ih]
    · simp [eraseKey, h, ih]

theorem listLookup_eraseKey_self {κ α : Type} [DecidableEq κ]
    (l : List (κ × α)) (k : κ) : listLookup (eraseKey l k) k = none := by
  induction l with
  | nil => simp [eraseKey, listLookup]
  | cons p rest ih =>
    by_cases h : p.1 = k <;> simp [eraseKey, listLookup, h, ih]

theorem listLookup_eraseKey_ne {κ α : Type} [DecidableEq κ]
    (l : List (κ × α)) (k k' : κ) (h : k' ≠ k) :
    listLookup (eraseKey l k) k' = listLookup l k' := by
  induction l with
  | nil => simp [eraseKey]
  | cons p rest ih =>
    by_cases hp : p.1 = k
    · have hp' : ¬p.1 = k' := by rw [hp]; exact fun hh => h hh.symm
      have hk : ¬k = k' := fun hh => h hh.symm
      simp [eraseKey, listLookup, hp, hp', hk, ih]
    · simp only [eraseKey, hp, if_false, listLookup]
      by_cases hq : p.1 = k' <;> simp [hq, ih]

theorem mem_updateKey {κ α : Type} [DecidableEq κ]
    {l : List (κ × α)} {k : κ} {v : α} {q : κ × α} :
    q ∈ updateKey l k v → q ∈ l ∨ q = (k, v) := by
  induction l with
  | nil =>
    intro h
    simpa [updateKey] using h
  | cons p rest ih =>
    intro h
    by_cases hp : p.1 = k
    · simp only [updateKey, hp, if_true, List.mem_cons] at h
      rcases h with h | h
      · exact Or.inr h
      · exact Or.inl (List.mem_cons_of_mem _ h)
    · simp only [updateKey, hp, if_false, List.mem_cons] at h
      rcases h with h | h
      · exact Or.inl (by simp [h])
      · rcases ih h with h1 | h1
        · exact Or.inl (List.mem_cons_of_mem _ h1)
        · exact Or.inr h1

theorem keysNodup_updateKey {κ α : Type} [DecidableEq κ]
    (l : List (κ × α)) (k : κ) (v : α) (h : keysNodup l) :
    keysNodup (updateKey l k v) := by
  induction l with
  | nil => simp [updateKey, keysNodup]
  | cons p rest ih =>
    simp only [keysNodup, List.map_cons, List.nodup_cons] at h
    by_cases hp : p.1 = k
    · simp only [updateKey, hp, if_true, keysNodup, List.map_cons, List.nodup_cons]
      exact ⟨by simpa [← hp] using h.1, h.2⟩
    · have hrest := ih h.2
      simp only [updateKey, hp, if_false, keysNodup, List.map_cons, List.nodup_cons]
      refine ⟨?_, hrest⟩
      intro hmem
      rcases List.mem_map.1 hmem with ⟨q, hq, hq1⟩
      rcases mem_updateKey hq with hmem1 | hmem1
      · exact h.1 (List.mem_map.2 ⟨q, hmem1, hq1⟩)
      · exact hp (by rw [← hq1, hmem1])

theorem mem_of_listLookup_eq_some {κ α : Type} [DecidableEq κ]
    {l : List (κ × α)} {k : κ} {v : α} (h : listLookup l k = some v) : (k, v) ∈ l := by
  induction l with
  | nil => simp [listLookup] at h
  | cons p rest ih =>
    by_cases hp : p.1 = k
    · simp only [listLookup, hp, if_true, Option.some.injEq] at h
      have hpq : p = (k, v) := by
        cases p with
        | mk a b =>
          simp only at hp h
          rw [hp, h]
      rw [← hpq]
      exact List.mem_cons_self p rest
    · simp only [listLookup, hp, if_false] at h
      exact List.mem_cons_of_mem _ (ih h)

theorem listLookup_eq_some_of_mem {κ α : Type} [DecidableEq κ]
    {l : List (κ × α)} {k : κ} {v : α} (hnd : keysNodup l) (h : (k, v) ∈ l) :
    listLookup l k = some v := by
  induction l with
  | nil => simp at h
  | cons p rest ih =>
    simp only [keysNodup, List.map_cons, List.nodup_cons] at hnd
    rcases List.mem_cons.1 h with h | h
    · simp [listLookup, ← h]
    · have hp : ¬p.1 = k := by
        intro hh
        exact hnd.1 (List.mem_map.2 ⟨(k, v), h, by simp [hh]⟩)
      simp [listLookup, hp, ih hnd.2 h]

theorem eq_nil_of_listLookup_none {κ α : Type} [DecidableEq κ]
    {l : List (κ × α)} (h : ∀ k, listLookup l k = none) : l = [] := by
  cases l with
  | nil => rfl
  | cons p rest => simpa [listLookup] using h p.1

/-! ### C2: Write is idempotent -/

/-- C2: for every `StateDir` and every event, writing the event twice in
succession produces the same final on-disk directory contents and the same
cached relation state as writing it once. -/
theorem c2_write_idempotent (d : StateDir) (e : HookInfo) :
    ((d.Write e).1.Write e).1 = (d.Write e).1 := by
  cases d with
  | mk dir st =>
    cases st with
    | mk rid mem pend =>
      cases e with
      | mk kind erid eunit ecv =>
        cases kind with
        | relationBroken =>
          cases dir with
          | none => simp [StateDir.Write]
          | some fs => cases fs with
            | nil => simp [StateDir.Write]
            | cons p rest => simp [StateDir.Write]
        | relationDeparted =>
          cases dir with
          | none =>
            cases mem with
            | none => simp [StateDir.Write]
            | some m => simp [StateDir.Write, eraseKey_idem]
          | some fs =>
            cases mem with
            | none => simp [StateDir.Write, eraseKey_idem]
            | some m => simp [StateDir.Write, eraseKey_idem]
        | relationJoined =>
          cases dir with
          | none => simp [StateDir.Write]
          | some fs =>
            cases mem with
            | none => simp [StateDir.Write, updateKey_idem]
            | some m => simp [StateDir.Write, updateKey_idem, listLookup_updateKey_self]
        | relationChanged =>
          cases dir with
          | none => simp [StateDir.Write]
          | some fs =>
            cases mem with
            | none => simp [StateDir.Write, updateKey_idem]
            | some m => simp [StateDir.Write, updateKey_idem]

/-! ### C1: the check order of Validate -/

/-- C1: `Validate` performs its checks in the spec's fixed order with the
corresponding distinct errors: relation-id mismatch gives `WrongRelation`;
otherwise a nil members map gives `RelationAlreadyBroken` before all later
checks; otherwise a teardown event is ok exactly when members is empty and
otherwise gives `UnitsStillPresent`; otherwise, with a changed-pending unit
set, only a "changed" event for exactly that unit is ok and anything else
gives `PendingChangeRequired`; otherwise "joined" for a current member gives
`AlreadyJoined`, a non-"joined" event for a non-member gives `NotJoined`,
and all remaining cases are ok. -/
theorem c1_validate_check_order (s : State) (e : HookInfo) :
    (e.RelationId ≠ s.RelationId →
      s.Validate e = .error (.wrongRelation s.RelationId e.RelationId)) ∧
    (e.RelationId = s.RelationId → s.Members = none →
      s.Validate e = .error .relationAlreadyBroken) ∧
    (∀ m, e.RelationId = s.RelationId → s.Members = some m →
      e.Kind = .relationBroken →
      (m = [] → s.Validate e = .ok ()) ∧
      (m ≠ [] → s.Validate e = .error .unitsStillPresent)) ∧
    (∀ m, e.RelationId = s.RelationId → s.Members = some m →
      e.Kind ≠ .relationBroken → s.ChangedPending ≠ "" →
      ((e.Kind = .relationChanged ∧ e.RemoteUnit = s.ChangedPending →
        s.Validate e = .ok ()) ∧
       (¬(e.Kind = .relationChanged ∧ e.RemoteUnit = s.ChangedPending) →
        s.Validate e = .error (.pendingChangeRequired s.ChangedPending)))) ∧
    (∀ m, e.RelationId = s.RelationId → s.Members = some m →
      e.Kind ≠ .relationBroken → s.ChangedPending = "" →
      (((listLookup m e.RemoteUnit).isSome ∧ e.Kind = .relationJoined →
        s.Validate e = .error .alreadyJoined) ∧
       (¬(listLookup m e.RemoteUnit).isSome ∧ e.Kind ≠ .relationJoined →
        s.Validate e = .error .notJoined) ∧
       (¬((listLookup m e.RemoteUnit).isSome ∧ e.Kind = .relationJoined) →
        ¬(¬(listLookup m e.RemoteUnit).isSome ∧ e.Kind ≠ .relationJoined) →
        s.Validate e = .ok ()))) := by
  refine ⟨?_, ?_, ?_, ?_, ?_⟩
  · intro hid
    simp [State.Validate, hid]
  · intro hid hm
    simp [State.Validate, hid, hm]
  · intro m hid hm hk
    constructor
    · intro hnil
      simp [State.Validate, hid, hm, hk, hnil]
    · intro hnil
      simp [State.Validate, hid, hm, hk, List.isEmpty_iff, hnil]
  · intro m hid hm hk hp
    constructor
    · intro ⟨hc, hu⟩
      simp [State.Validate, hid, hm, hk, hp, hc, hu]
    · intro hnc
      have hdisj : e.RemoteUnit ≠ s.ChangedPending ∨ e.Kind ≠ .relationChanged := by
        by_cases hc : e.Kind = .relationChanged
        · by_cases hu : e.RemoteUnit = s.ChangedPending
          · exact absurd ⟨hc, hu⟩ hnc
          · exact Or.inl hu
        · exact Or.inr hc
      simp only [State.Validate, hid, hm]
      simp [hk, hp, hdisj]
  · intro m hid hm hk hp
    refine ⟨?_, ?_, ?_⟩
    · intro ⟨hj, hkj⟩
      simp [State.Validate, hid, hm, hk, hp, hj, hkj]
    · intro ⟨hj, hkj⟩
      simp [State.Validate, hid, hm, hk, hp, hj, hkj]
    · intro h1 h2
      by_cases hj : (listLookup m e.RemoteUnit).isSome
      · have hkj : e.Kind ≠ .relationJoined := fun hh => h1 ⟨hj, hh⟩
        simp [State.Validate, hid, hm, hk, hp, hj, hkj]
      · have hkj : e.Kind = .relationJoined := by
          by_contra hh
          exact h2 ⟨hj, hh⟩
        simp [State.Validate, hid, hm, hk, hp, hj, hkj]

/-- Witness for C1 at a concrete state and event: the relation-id check
fires first. -/
theorem c1_validate_check_order_w :
    (State.mk 1 (some []) "").Validate ⟨.relationJoined, 2, "a/0", 0⟩ =
      .error (.wrongRelation 1 2) :=
  (c1_validate_check_order (State.mk 1 (some []) "") ⟨.relationJoined, 2, "a/0", 0⟩).1
    (by decide)

/-! ### C5: what Validate accepts right after a "joined" write -/

/-- Counterexample to C5 as stated: after a "joined" write for `a/0`, a
teardown event with the matching relation id is rejected with
`UnitsStillPresent`, not with `PendingChangeRequired`. -/
theorem c5_counterexample :
    ((startDir 0).Write ⟨.relationJoined, 0, "a/0", 1⟩).2 = none ∧
    ((startDir 0).Write ⟨.relationJoined, 0, "a/0", 1⟩).1.state.ChangedPending = "a/0" ∧
    ((startDir 0).Write ⟨.relationJoined, 0, "a/0", 1⟩).1.state.Validate
      ⟨.relationBroken, 0, "", 0⟩ = .error .unitsStillPresent ∧
    (ValidationError.unitsStillPresent ≠ .pendingChangeRequired "a/0") := by decide

/-- C5 as amended: after a successful "joined" write for a (nonempty-named)
unit `u`, `Validate` accepts only a "changed" event for `u`; every other
non-teardown event with the matching relation id is rejected with
`PendingChangeRequired`, and a teardown event is rejected with
`UnitsStillPresent` (since `u` is still a member). -/
theorem c5_pending_gate (d : StateDir) (e : HookInfo) (d' : StateDir)
    (hkind : e.Kind = .relationJoined) (hne : e.RemoteUnit ≠ "")
    (hw : d.Write e = (d', none)) (e2 : HookInfo)
    (hid : e2.RelationId = d'.state.RelationId) :
    (e2.Kind = .relationChanged ∧ e2.RemoteUnit = e.RemoteUnit →
      d'.state.Validate e2 = .ok ()) ∧
    (e2.Kind = .relationBroken →
      d'.state.Validate e2 = .error .unitsStillPresent) ∧
    (e2.Kind ≠ .relationBroken →
      ¬(e2.Kind = .relationChanged ∧ e2.RemoteUnit = e.RemoteUnit) →
      d'.state.Validate e2 = .error (.pendingChangeRequired e.RemoteUnit)) := by
  cases e with
  | mk kind erid eunit ecv =>
    simp only at hkind hne
    subst hkind
    cases hdir : d.dir with
    | none =>
      rw [show d.Write ⟨.relationJoined, erid, eunit, ecv⟩ = (d, some .dirMissing) by
        simp [StateDir.Write, hdir]] at hw
      simp at hw
    | some fs =>
      cases hmem : d.state.Members with
      | none =>
        rw [show d.Write ⟨.relationJoined, erid, eunit, ecv⟩ =
            ({ dir := some (updateKey fs (fileNameOf eunit) ⟨some ecv, true⟩),
               state := d.state }, some .nilMembersPanic) by
          simp [StateDir.Write, hdir, hmem]] at hw
        simp at hw
      | some m =>
        rw [show d.Write ⟨.relationJoined, erid, eunit, ecv⟩ =
            ({ dir := some (updateKey fs (fileNameOf eunit) ⟨some ecv, true⟩),
               state := { d.state with
                          Members := some (updateKey m eunit ecv),
                          ChangedPending := eunit } }, none) by
          simp [StateDir.Write, hdir, hmem]] at hw
        have hd' := (Prod.ext_iff.1 hw).1
        simp only [Prod.fst] at hd'
        subst hd'
        simp only at hid
        have hne' : updateKey m eunit ecv ≠ [] := updateKey_ne_nil m eunit ecv
        refine ⟨?_, ?_, ?_⟩
        · intro ⟨hc, hu⟩
          simp [State.Validate, hid, hc, hu, hne]
        · intro hb
          simp [State.Validate, hid, hb, List.isEmpty_iff, hne']
        · intro hb hnc
          have hdisj : e2.RemoteUnit ≠ eunit ∨ e2.Kind ≠ .relationChanged := by
            by_cases hc : e2.Kind = .relationChanged
            · by_cases hu : e2.RemoteUnit = eunit
              · exact absurd ⟨hc, hu⟩ hnc
              · exact Or.inl hu
            · exact Or.inr hc
          simp [State.Validate, hid, hb, hne, hdisj]

/-- Witness for the amended C5: after joining `a/0`, a "joined" event for a
different unit `b/0` of the same relation is rejected with
`PendingChangeRequired a/0`. -/
theorem c5_pending_gate_w :
    (StateDir.mk (some [("a-0", ⟨some 1, true⟩)]) ⟨0, some [("a/0", 1)], "a/0"⟩).state.Validate
      ⟨.relationJoined, 0, "b/0", 1⟩ = .error (.pendingChangeRequired "a/0") :=
  (c5_pending_gate (startDir 0) ⟨.relationJoined, 0, "a/0", 1⟩
      (StateDir.mk (some [("a-0", ⟨some 1, true⟩)]) ⟨0, some [("a/0", 1)], "a/0"⟩)
      rfl (by decide) (by decide) ⟨.relationJoined, 0, "b/0", 1⟩ rfl).2.2
    (by decide) (by decide)

/-! ### C7: the frame of a "departed" write -/

/-- C7: a "departed" write always succeeds (a missing record file is
tolerated), removes the unit from the cached members map, deletes the unit's
record file, and leaves `ChangedPending` (and the relation id) unchanged —
even when the departing unit is the changed-pending unit. -/
theorem c7_departed_frame (d : StateDir) (e : HookInfo)
    (h : e.Kind = .relationDeparted) :
    (d.Write e).2 = none ∧
    (d.Write e).1.state.Members =
      d.state.Members.map (fun m => eraseKey m e.RemoteUnit) ∧
    (d.Write e).1.dir = d.dir.map (fun fs => eraseKey fs (fileNameOf e.RemoteUnit)) ∧
    (d.Write e).1.state.ChangedPending = d.state.ChangedPending ∧
    (d.Write e).1.state.RelationId = d.state.RelationId := by
  cases e with
  | mk kind erid eunit ecv =>
    simp only at h
    subst h
    simp [StateDir.Write]

/-- Witness for C7: departing `a/0` while it is the changed-pending unit
removes it from members, deletes its file, and leaves the pending unit
unchanged. -/
theorem c7_departed_frame_w :
    ((StateDir.mk (some [("a-0", ⟨some 1, true⟩)]) ⟨0, some [("a/0", 1)], "a/0"⟩).Write
        ⟨.relationDeparted, 0, "a/0", 0⟩).2 = none ∧
    ((StateDir.mk (some [("a-0", ⟨some 1, true⟩)]) ⟨0, some [("a/0", 1)], "a/0"⟩).Write
        ⟨.relationDeparted, 0, "a/0", 0⟩).1.state.ChangedPending = "a/0" := by
  have h := c7_departed_frame
    (StateDir.mk (some [("a-0", ⟨some 1, true⟩)]) ⟨0, some [("a/0", 1)], "a/0"⟩)
    ⟨.relationDeparted, 0, "a/0", 0⟩ rfl
  exact ⟨h.1, h.2.2.2.1⟩

/-! ### C9: missing directories are fresh states, not errors -/

/-- C9: when the relation's subdirectory does not exist, `ReadStateDir`
returns, without error, a freshly-initialized state with that relation id,
an empty non-torn-down members map and no changed-pending unit; when the
root itself does not exist, the same holds, and `ReadAllStateDirs` returns
an empty result with no error. -/
theorem c9_missing_is_fresh (entries : List (String × RootEntry)) (rid : Int) :
    (listLookup entries (goItoa rid) = none →
      ReadStateDir (some entries) rid = .ok (freshStateDir rid)) ∧
    ReadStateDir none rid = .ok (freshStateDir rid) ∧
    ReadAllStateDirs none = .ok [] ∧
    (freshStateDir rid).state.RelationId = rid ∧
    (freshStateDir rid).state.Members = some [] ∧
    (freshStateDir rid).state.ChangedPending = "" := by
  refine ⟨?_, rfl, rfl, rfl, rfl, rfl⟩
  intro h
  simp [ReadStateDir, h, readStateDirAux]

/-- Witness for C9: a root holding only a non-numeric entry has no
subdirectory for relation 3, and loading yields the fresh state. -/
theorem c9_missing_is_fresh_w :
    ReadStateDir (some [("charm", RootEntry.file)]) 3 = .ok (freshStateDir 3) :=
  (c9_missing_is_fresh [("charm", RootEntry.file)] 3).1 (by decide)

/-! ### C10: the torn-down sentinel is never reconstructed from disk -/

/-- C10: every state successfully returned by `ReadStateDir` has a non-nil
members map, and after a successful teardown write the directory reloads as
the fresh empty state rather than as broken. -/
theorem c10_reload_never_broken :
    (∀ root rid d, ReadStateDir root rid = .ok d → d.state.Members.isSome = true) ∧
    (∀ (rid : Int) (d : StateDir) (e : HookInfo), e.Kind = .relationBroken →
      (d.Write e).2 = none →
      readStateDirAux (d.Write e).1.dir rid = .ok (freshStateDir rid)) := by
  constructor
  · intro root rid d h
    cases root with
    | none =>
      simp only [ReadStateDir, readStateDirAux, Except.ok.injEq] at h
      rw [← h]
      rfl
    | some entries =>
      cases hl : listLookup entries (goItoa rid) with
      | none =>
        simp only [ReadStateDir, hl, readStateDirAux, Except.ok.injEq] at h
        rw [← h]
        rfl
      | some entry =>
        cases entry with
        | file => simp [ReadStateDir, hl] at h
        | subdir files =>
          simp only [ReadStateDir, hl, readStateDirAux] at h
          cases hload : loadEntries files [] "" with
          | error e => rw [hload] at h; simp [Except.map] at h
          | ok p =>
            rw [hload] at h
            simp only [Except.map, Except.ok.injEq] at h
            rw [← h]
            rfl
  · intro rid d e hk hw
    cases e with
    | mk kind erid eunit ecv =>
      simp only at hk
      subst hk
      cases hdir : d.dir with
      | none => simp [StateDir.Write, hdir, readStateDirAux]
      | some fs =>
        cases fs with
        | nil => simp [StateDir.Write, hdir, readStateDirAux]
        | cons p rest => simp [StateDir.Write, hdir] at hw

/-- Witness for C10: a state loaded from a missing directory has a non-nil
members map. -/
theorem c10_reload_never_broken_w :
    (freshStateDir 5).state.Members.isSome = true :=
  c10_reload_never_broken.1 none 5 (freshStateDir 5) (by decide)

/-! ### C8: corrupt directories are load errors -/

theorem isErrorB_map {ε α β : Type} (f : α → β) (x : Except ε α) :
    isErrorB (x.map f) = isErrorB x := by
  cases x <;> rfl

theorem loadEntries_error_of_missing_cv :
    ∀ (fs : List (String × DiskInfo)) (m : List (String × Int)) (pend : String),
    (∃ p ∈ fs, entryMatches p = true ∧ p.2.changeVersion = none) →
    isErrorB (loadEntries fs m pend) = true := by
  intro fs
  induction fs with
  | nil =>
    intro m pend h
    simp at h
  | cons q rest ih =>
    intro m pend h
    cases q with
    | mk name info =>
      rcases h with ⟨p, hp, hm, hcv⟩
      cases hsplit : splitAtLastDash name.data with
      | none =>
        rcases List.mem_cons.1 hp with hh | hh
        · rw [hh] at hm
          simp [entryMatches, hsplit] at hm
        · simp only [loadEntries, hsplit]
          exact ih m pend ⟨p, hh, hm, hcv⟩
      | some q2 =>
        cases q2 with
        | mk svc unitId =>
          cases hat : goAtoiL unitId with
          | none =>
            rcases List.mem_cons.1 hp with hh | hh
            · rw [hh] at hm
              simp [entryMatches, hsplit, hat] at hm
            · simp only [loadEntries, hsplit, hat]
              exact ih m pend ⟨p, hh, hm, hcv⟩
          | some z =>
            cases hcv2 : info.changeVersion with
            | none => simp [loadEntries, hsplit, hat, hcv2, isErrorB]
            | some v =>
              have hh : p ∈ rest := by
                rcases List.mem_cons.1 hp with hh | hh
                · rw [hh] at hcv
                  simp only at hcv
                  rw [hcv] at hcv2
                  cases hcv2
                · exact hh
              simp only [loadEntries, hsplit, hat, hcv2]
              by_cases hflag : info.changedPending
              · by_cases hpend : pend ≠ ""
                · simp [hflag, hpend, isErrorB]
                · have hpend' : pend = "" := by
                    by_contra hc
                    exact hpend hc
                  subst hpend'
                  simp only [hflag, if_true, ne_eq, not_true_eq_false, if_false]
                  exact ih _ _ ⟨p, hh, hm, hcv⟩
              · simp only [Bool.not_eq_true] at hflag
                simp only [hflag, Bool.false_eq_true, if_false]
                exact ih _ _ ⟨p, hh, hm, hcv⟩

theorem loadEntries_error_of_pending_seen :
    ∀ (fs : List (String × DiskInfo)) (m : List (String × Int)) (pend : String),
    pend ≠ "" →
    (∃ p ∈ fs, entryMatches p = true ∧ p.2.changedPending = true) →
    isErrorB (loadEntries fs m pend) = true := by
  intro fs
  induction fs with
  | nil =>
    intro m pend hpend h
    simp at h
  | cons q rest ih =>
    intro m pend hpend h
    cases q with
    | mk name info =>
      rcases h with ⟨p, hp, hm, hflag⟩
      cases hsplit : splitAtLastDash name.data with
      | none =>
        rcases List.mem_cons.1 hp with hh | hh
        · rw [hh] at hm
          simp [entryMatches, hsplit] at hm
        · simp only [loadEntries, hsplit]
          exact ih m pend hpend ⟨p, hh, hm, hflag⟩
      | some q2 =>
        cases q2 with
        | mk svc unitId =>
          cases hat : goAtoiL unitId with
          | none =>
            rcases List.mem_cons.1 hp with hh | hh
            · rw [hh] at hm
              simp [entryMatches, hsplit, hat] at hm
            · simp only [loadEntries, hsplit, hat]
              exact ih m pend hpend ⟨p, hh, hm, hflag⟩
          | some z =>
            cases hcv2 : info.changeVersion with
            | none => simp [loadEntries, hsplit, hat, hcv2, isErrorB]
            | some v =>
              simp only [loadEntries, hsplit, hat, hcv2]
              by_cases hflag2 : info.changedPending
              · simp [hflag2, hpend, isErrorB]
              · have hh : p ∈ rest := by
                  rcases List.mem_cons.1 hp with hh | hh
                  · rw [hh] at hflag
                    simp only at hflag
                    rw [hflag] at hflag2
                    exact absurd rfl hflag2
                  · exact hh
                simp only [Bool.not_eq_true] at hflag2
                simp only [hflag2, Bool.false_eq_true, if_false]
                exact ih _ _ hpend ⟨p, hh, hm, hflag⟩

theorem nonEmptyUnitName (svc unitId : List Char) :
    (⟨svc ++ '/' :: unitId⟩ : String) ≠ "" := by
  intro h
  have hd := congrArg String.data h
  simp at hd

theorem loadEntries_error_of_two_pending :
    ∀ (fs : List (String × DiskInfo)) (m : List (String × Int)) (pend : String),
    2 ≤ fs.countP (fun p => entryMatches p && p.2.changedPending) →
    isErrorB (loadEntries fs m pend) = true := by
  intro fs
  induction fs with
  | nil =>
    intro m pend h
    simp [List.countP_nil] at h
  | cons q rest ih =>
    intro m pend h
    cases q with
    | mk name info =>
      by_cases hq : (entryMatches (name, info) && info.changedPending) = true
      · rw [Bool.and_eq_true] at hq
        obtain ⟨hmatch, hflag⟩ := hq
        have hcount : 1 ≤ rest.countP (fun p => entryMatches p && p.2.changedPending) := by
          simp only [List.countP_cons, hmatch, hflag, Bool.and_self, if_true] at h
          omega
        have hex : ∃ p ∈ rest, entryMatches p = true ∧ p.2.changedPending = true := by
          have hpos : 0 < rest.countP (fun p => entryMatches p && p.2.changedPending) := by
            omega
          rcases List.countP_pos_iff.1 hpos with ⟨p, hp, hpp⟩
          rw [Bool.and_eq_true] at hpp
          exact ⟨p, hp, hpp.1, hpp.2⟩
        cases hsplit : splitAtLastDash name.data with
        | none => simp [entryMatches, hsplit] at hmatch
        | some q2 =>
          cases q2 with
          | mk svc unitId =>
            cases hat : goAtoiL unitId with
            | none => simp [entryMatches, hsplit, hat] at hmatch
            | some z =>
              cases hcv2 : info.changeVersion with
              | none => simp [loadEntries, hsplit, hat, hcv2, isErrorB]
              | some v =>
                simp only [loadEntries, hsplit, hat, hcv2]
                by_cases hpend : pend ≠ ""
                · simp [hflag, hpend, isErrorB]
                · simp only [ne_eq, not_not] at hpend
                  simp [hflag, hpend]
                  exact loadEntries_error_of_pending_seen rest _ _
                    (nonEmptyUnitName svc unitId) hex
      · have hcount : 2 ≤ rest.countP (fun p => entryMatches p && p.2.changedPending) := by
          simp only [Bool.not_eq_true] at hq
          simp only [List.countP_cons, hq, Bool.false_eq_true, if_false] at h
          omega
        cases hsplit : splitAtLastDash name.data with
        | none =>
          simp only [loadEntries, hsplit]
          exact ih m pend hcount
        | some q2 =>
          cases q2 with
          | mk svc unitId =>
            cases hat : goAtoiL unitId with
            | none =>
              simp only [loadEntries, hsplit, hat]
              exact ih m pend hcount
            | some z =>
              cases hcv2 : info.changeVersion with
              | none => simp [loadEntries, hsplit, hat, hcv2, isErrorB]
              | some v =>
                simp only [loadEntries, hsplit, hat, hcv2]
                by_cases hflag : info.changedPending
                · have : entryMatches (name, info) = true := by
                    simp [entryMatches, hsplit, hat]
                  simp [this, hflag] at hq
                · simp only [Bool.not_eq_true] at hflag
                  simp [hflag]
                  exact ih _ _ hcount

/-- C8: when the relation's subdirectory holds a matching unit record
without the required change-version field, or more than one matching record
carrying the changed-pending flag, `ReadStateDir` returns an error and no
state is produced. -/
theorem c8_corrupt_dir_errors (entries : List (String × RootEntry)) (rid : Int)
    (fs : List (String × DiskInfo))
    (hsub : listLookup entries (goItoa rid) = some (.subdir fs)) :
    ((∃ p ∈ fs, entryMatches p = true ∧ p.2.changeVersion = none) →
      isErrorB (ReadStateDir (some entries) rid) = true) ∧
    (2 ≤ fs.countP (fun p => entryMatches p && p.2.changedPending) →
      isErrorB (ReadStateDir (some entries) rid) = true) := by
  have hred : isErrorB (ReadStateDir (some entries) rid) =
      isErrorB (loadEntries fs [] "") := by
    simp only [ReadStateDir, hsub, readStateDirAux]
    exact isErrorB_map _ _
  constructor
  · intro hex
    rw [hred]
    exact loadEntries_error_of_missing_cv fs [] "" hex
  · intro hc
    rw [hred]
    exact loadEntries_error_of_two_pending fs [] "" hc

/-- Witness for C8: a single record file `a-0` lacking `change-version`
makes the load of relation 4 fail. -/
theorem c8_corrupt_dir_errors_w :
    isErrorB (ReadStateDir (some [("4", RootEntry.subdir [("a-0", ⟨none, false⟩)])]) 4) = true :=
  (c8_corrupt_dir_errors [("4", RootEntry.subdir [("a-0", ⟨none, false⟩)])] 4
      [("a-0", ⟨none, false⟩)] (by decide)).1
    ⟨("a-0", ⟨none, false⟩), by decide, by decide, by decide⟩

/-! ### Decimal digits: Atoi is a left inverse of Itoa -/

theorem digitChar_isDigit {d : Nat} (h : d < 10) : isDigitChar (digitChar d) = true := by
  interval_cases d <;> decide

theorem digitVal_digitChar {d : Nat} (h : d < 10) : digitVal (digitChar d) = d := by
  interval_cases d <;> decide

theorem digitChar_ne_dash {d : Nat} (h : d < 10) : digitChar d ≠ '-' := by
  interval_cases d <;> decide

theorem digitChar_ne_plus {d : Nat} (h : d < 10) : digitChar d ≠ '+' := by
  interval_cases d <;> decide

theorem foldl_digitChars (L : List Nat) (hL : ∀ d ∈ L, d < 10) (a : Nat) :
    ((L.map digitChar).reverse).foldl (fun x c => x * 10 + digitVal c) a =
      a * 10 ^ L.length + Nat.ofDigits 10 L := by
  induction L generalizing a with
  | nil => simp [Nat.ofDigits_nil]
  | cons d L' ih =>
    have hd : d < 10 := hL d (List.mem_cons_self d L')
    have hL' : ∀ x ∈ L', x < 10 := fun x hx => hL x (List.mem_cons_of_mem d hx)
    simp only [List.map_cons, List.reverse_cons, List.foldl_append, List.foldl_cons,
      List.foldl_nil, ih hL' a, Nat.ofDigits_cons, List.length_cons,
      digitVal_digitChar hd]
    ring

theorem natCharsL_eq (fuel n : Nat) (h : n ≤ fuel) :
    natCharsL fuel n = (Nat.digits 10 n).map digitChar := by
  induction fuel generalizing n with
  | zero =>
    have hn : n = 0 := by omega
    subst hn
    simp [natCharsL]
  | succ f ih =>
    by_cases hn : n = 0
    · subst hn
      simp [natCharsL]
    · have hdiv : n / 10 < n := Nat.div_lt_self (Nat.pos_of_ne_zero hn) (by norm_num)
      rw [show natCharsL (f + 1) n = digitChar (n % 10) :: natCharsL f (n / 10) by
        simp [natCharsL, hn]]
      rw [ih (n / 10) (by omega)]
      rw [Nat.digits_def' (by norm_num : 1 < 10) (Nat.pos_of_ne_zero hn)]
      simp

theorem natChars_eq (n : Nat) :
    natChars n = ((Nat.digits 10 n).map digitChar).reverse := by
  rw [natChars, natCharsL_eq n n le_rfl]

theorem parseDigits_natChars (n : Nat) (hn : n ≠ 0) : parseDigits (natChars n) = some n := by
  have hlt : ∀ d ∈ Nat.digits 10 n, d < 10 :=
    fun d hd => Nat.digits_lt_base (by norm_num) hd
  have hne : natChars n ≠ [] := by
    rw [natChars_eq]
    simp [Nat.digits_ne_nil_iff_ne_zero.2 hn]
  have hall : (natChars n).all isDigitChar = true := by
    rw [List.all_eq_true]
    intro c hc
    rw [natChars_eq, List.mem_reverse, List.mem_map] at hc
    rcases hc with ⟨d, hd, hcd⟩
    rw [← hcd]
    exact digitChar_isDigit (hlt d hd)
  have hval : digitsValue (natChars n) = n := by
    rw [digitsValue, natChars_eq, foldl_digitChars (Nat.digits 10 n) hlt 0]
    simp [Nat.ofDigits_digits]
  rw [parseDigits, if_neg (by simp [hne]), if_pos hall, hval]

theorem natChars_head_digit (n : Nat) (hn : n ≠ 0) :
    ∃ c rest, natChars n = c :: rest ∧ isDigitChar c = true := by
  have hlt : ∀ d ∈ Nat.digits 10 n, d < 10 :=
    fun d hd => Nat.digits_lt_base (by norm_num) hd
  have hne : natChars n ≠ [] := by
    rw [natChars_eq]
    simp [Nat.digits_ne_nil_iff_ne_zero.2 hn]
  cases hsh : natChars n with
  | nil => exact absurd hsh hne
  | cons c rest =>
    refine ⟨c, rest, rfl, ?_⟩
    have hc : c ∈ natChars n := by
      rw [hsh]
      exact List.mem_cons_self c rest
    rw [natChars_eq, List.mem_reverse, List.mem_map] at hc
    rcases hc with ⟨d, hd, hcd⟩
    rw [← hcd]
    exact digitChar_isDigit (hlt d hd)

theorem isDigit_ne_dash {c : Char} (h : isDigitChar c = true) : ¬c = '-' := by
  intro hc
  rw [hc] at h
  exact absurd h (by decide)

theorem isDigit_ne_plus {c : Char} (h : isDigitChar c = true) : ¬c = '+' := by
  intro hc
  rw [hc] at h
  exact absurd h (by decide)

theorem goAtoiL_bounds {cs : List Char} {i : Int} (h : goAtoiL cs = some i) :
    -(minInt64Abs : Int) ≤ i ∧ i ≤ (maxInt64 : Int) := by
  cases cs with
  | nil => simp [goAtoiL] at h
  | cons c rest =>
    by_cases hdash : c = '-'
    · rw [hdash] at h
      rw [show goAtoiL ('-' :: rest) = atoiNeg (parseDigits rest) by
        simp [goAtoiL]] at h
      cases hp : parseDigits rest with
      | none => rw [hp] at h; simp [atoiNeg] at h
      | some n =>
        rw [hp] at h
        simp only [atoiNeg] at h
        by_cases hb : n ≤ minInt64Abs
        · rw [if_pos hb] at h
          rw [Option.some_inj] at h
          unfold minInt64Abs maxInt64
          unfold minInt64Abs at hb
          constructor <;> omega
        · rw [if_neg hb] at h
          cases h
    · have hred : goAtoiL (c :: rest) = some i → ∃ ds, parseDigits ds = some i.toNat ∧
          i.toNat ≤ maxInt64 ∧ 0 ≤ i := by
        intro hh
        by_cases hplus : c = '+'
        · rw [hplus] at hh
          rw [show goAtoiL ('+' :: rest) = atoiPos (parseDigits rest) by
            simp [goAtoiL]] at hh
          cases hp : parseDigits rest with
          | none => rw [hp] at hh; simp [atoiPos] at hh
          | some n =>
            rw [hp] at hh
            simp only [atoiPos] at hh
            by_cases hb : n ≤ maxInt64
            · rw [if_pos hb] at hh
              rw [Option.some_inj] at hh
              refine ⟨rest, ?_, ?_, ?_⟩ <;> simp [hp, ← hh, hb]
            · rw [if_neg hb] at hh
              cases hh
        · rw [show goAtoiL (c :: rest) = atoiPos (parseDigits (c :: rest)) by
            simp [goAtoiL, hdash, hplus]] at hh
          cases hp : parseDigits (c :: rest) with
          | none => rw [hp] at hh; simp [atoiPos] at hh
          | some n =>
            rw [hp] at hh
            simp only [atoiPos] at hh
            by_cases hb : n ≤ maxInt64
            · rw [if_pos hb] at hh
              rw [Option.some_inj] at hh
              refine ⟨c :: rest, ?_, ?_, ?_⟩ <;> simp [hp, ← hh, hb]
            · rw [if_neg hb] at hh
              cases hh
      rcases hred h with ⟨ds, hds, hb, hnn⟩
      unfold minInt64Abs maxInt64
      unfold maxInt64 at hb
      omega

theorem goAtoi_goItoa (i : Int) (h1 : -(minInt64Abs : Int) ≤ i)
    (h2 : i ≤ (maxInt64 : Int)) : goAtoi (goItoa i) = some i := by
  by_cases hneg : i < 0
  · have hna : i.natAbs ≠ 0 := by omega
    have hb : i.natAbs ≤ minInt64Abs := by
      unfold minInt64Abs at h1 ⊢
      omega
    have hstep : goAtoi (goItoa i) = atoiNeg (parseDigits (natChars i.natAbs)) := by
      rw [goItoa, if_pos hneg]
      simp [goAtoi, goAtoiL]
    rw [hstep, parseDigits_natChars i.natAbs hna]
    simp only [atoiNeg]
    rw [if_pos hb]
    congr 1
    omega
  · by_cases hz : i = 0
    · subst hz
      decide
    · have hna : i.natAbs ≠ 0 := by omega
      rcases natChars_head_digit i.natAbs hna with ⟨c, rest, hsh, hdig⟩
      have hb : i.natAbs ≤ maxInt64 := by
        unfold maxInt64 at h2 ⊢
        omega
      have hstep : goAtoi (goItoa i) = atoiPos (parseDigits (natChars i.natAbs)) := by
        rw [goItoa, if_neg (by omega), if_neg hz]
        rw [show (⟨natChars i.natAbs⟩ : String) = ⟨c :: rest⟩ from congrArg String.mk hsh]
        simp [goAtoi, goAtoiL, isDigit_ne_dash hdig, isDigit_ne_plus hdig, ← hsh]
      rw [hstep, parseDigits_natChars i.natAbs hna]
      simp only [atoiPos]
      rw [if_pos hb]
      congr 1
      omega

/-! ### C6: which root entries ReadAllStateDirs considers -/


theorem listLookup_filter_parses (entries : List (String × RootEntry)) (k : String)
    (hk : (goAtoi k).isSome = true) :
    listLookup (entries.filter parsesB) k = listLookup entries k := by
  induction entries with
  | nil => rfl
  | cons p rest ih =>
    cases hp : parsesB p with
    | true =>
      rw [List.filter_cons_of_pos hp]
      by_cases hpk : p.1 = k
      · simp [listLookup, hpk]
      · simp [listLookup, hpk, ih]
    | false =>
      rw [List.filter_cons_of_neg (by simp [hp])]
      have hpk : ¬p.1 = k := by
        intro hh
        rw [parsesB, hh, hk] at hp
        cases hp
      simp [listLookup, hpk, ih]

theorem readStateDir_filter_parses (entries : List (String × RootEntry)) (rid : Int)
    (hk : (goAtoi (goItoa rid)).isSome = true) :
    ReadStateDir (some (entries.filter parsesB)) rid = ReadStateDir (some entries) rid := by
  simp only [ReadStateDir, listLookup_filter_parses entries (goItoa rid) hk]

theorem readAllGo_filter (entries : List (String × RootEntry)) :
    ∀ (it : List (String × RootEntry)) (acc : List (Int × StateDir)),
    readAllGo (entries.filter parsesB) (it.filter parsesB) acc = readAllGo entries it acc := by
  intro it
  induction it with
  | nil => intro acc; rfl
  | cons p rest ih =>
    intro acc
    cases p with
    | mk nm ent =>
      cases hat : goAtoi nm with
      | none =>
        have hpb : parsesB (nm, ent) = false := by simp [parsesB, hat]
        rw [List.filter_cons_of_neg (by simp [hpb])]
        simp only [readAllGo, hat]
        exact ih acc
      | some rid =>
        have hpb : parsesB (nm, ent) = true := by simp [parsesB, hat]
        rw [List.filter_cons_of_pos hpb]
        have hat' : goAtoiL nm.data = some rid := hat
        have hb := goAtoiL_bounds hat'
        have hrt : goAtoi (goItoa rid) = some rid := goAtoi_goItoa rid hb.1 hb.2
        have hsome : (goAtoi (goItoa rid)).isSome = true := by rw [hrt]; rfl
        simp only [readAllGo, hat, readStateDir_filter_parses entries rid hsome]
        cases hrd : ReadStateDir (some entries) rid with
        | error e => rfl
        | ok d => exact ih _

theorem readAllGo_mem (entries : List (String × RootEntry)) :
    ∀ (it : List (String × RootEntry)) (acc dirs : List (Int × StateDir)),
    readAllGo entries it acc = .ok dirs → ∀ q ∈ dirs,
    q ∈ acc ∨ ∃ nm ent, (nm, ent) ∈ it ∧ goAtoi nm = some q.1 := by
  intro it
  induction it with
  | nil =>
    intro acc dirs h q hq
    simp only [readAllGo, Except.ok.injEq] at h
    exact Or.inl (h ▸ hq)
  | cons p rest ih =>
    intro acc dirs h q hq
    cases p with
    | mk nm ent =>
      cases hat : goAtoi nm with
      | none =>
        simp only [readAllGo, hat] at h
        rcases ih acc dirs h q hq with hin | ⟨nm', ent', hmem, hat2⟩
        · exact Or.inl hin
        · exact Or.inr ⟨nm', ent', List.mem_cons_of_mem _ hmem, hat2⟩
      | some rid =>
        simp only [readAllGo, hat] at h
        cases hrd : ReadStateDir (some entries) rid with
        | error e => rw [hrd] at h; cases h
        | ok d =>
          rw [hrd] at h
          rcases ih _ dirs h q hq with hin | ⟨nm', ent', hmem, hat2⟩
          · rcases mem_updateKey hin with hin2 | hin2
            · exact Or.inl hin2
            · refine Or.inr ⟨nm, ent, List.mem_cons_self _ _, ?_⟩
              rw [hin2]
              exact hat
          · exact Or.inr ⟨nm', ent', List.mem_cons_of_mem _ hmem, hat2⟩

/-- Counterexample to C6 as stated: the entry named `-1` parses under
`strconv.Atoi` although `-1` is not a non-negative integer, and
`ReadAllStateDirs` includes it in its result instead of ignoring it. -/
theorem c6_counterexample :
    goAtoi "-1" = some (-1) ∧ ((-1 : Int) < 0) ∧
    ReadAllStateDirs (some [("-1", RootEntry.subdir [])]) =
      .ok [((-1 : Int), ⟨some [], ⟨-1, some [], ""⟩⟩)] := by decide

/-- C6 as amended: an immediate entry of the root contributes to the result
of `ReadAllStateDirs` only if its name parses under Go `strconv.Atoi`
semantics — an optionally signed decimal integer, so negative names qualify
as well — and entries whose names do not parse are ignored entirely (the
result is the same as if they were absent). -/
theorem c6_integer_named_entries (entries : List (String × RootEntry)) :
    (∀ dirs, ReadAllStateDirs (some entries) = .ok dirs →
      ∀ q ∈ dirs, ∃ nm ent, (nm, ent) ∈ entries ∧ goAtoi nm = some q.1) ∧
    ReadAllStateDirs (some (entries.filter parsesB)) = ReadAllStateDirs (some entries) := by
  constructor
  · intro dirs h q hq
    have hmem := readAllGo_mem entries entries [] dirs h q hq
    rcases hmem with hin | hex
    · cases hin
    · exact hex
  · simp only [ReadAllStateDirs]
    exact readAllGo_filter entries entries []

/-- Witness for the amended C6: a root with a non-numeric entry loads
exactly as the root with that entry removed. -/
theorem c6_integer_named_entries_w :
    [("charm", RootEntry.file), ("2", RootEntry.subdir [])].filter parsesB =
      [("2", RootEntry.subdir [])] ∧
    ReadAllStateDirs
        (some ([("charm", RootEntry.file), ("2", RootEntry.subdir [])].filter parsesB)) =
      ReadAllStateDirs (some [("charm", RootEntry.file), ("2", RootEntry.subdir [])]) :=
  ⟨by decide,
   (c6_integer_named_entries [("charm", RootEntry.file), ("2", RootEntry.subdir [])]).2⟩

/-! ### C4: the §4.1 protocol refines validate-then-write -/


theorem write_joined_eq (d : StateDir) (e : HookInfo) (hk : e.Kind = .relationJoined)
    (fs : List (String × DiskInfo)) (m : List (String × Int))
    (hdir : d.dir = some fs) (hmem : d.state.Members = some m) :
    d.Write e = (StateDir.mk
      (some (updateKey fs (fileNameOf e.RemoteUnit) ⟨some e.ChangeVersion, true⟩))
      (State.mk d.state.RelationId (some (updateKey m e.RemoteUnit e.ChangeVersion))
        e.RemoteUnit), none) := by
  cases e with
  | mk kind erid eunit ecv =>
    simp only at hk
    subst hk
    simp [StateDir.Write, hdir, hmem]

theorem write_changed_eq (d : StateDir) (e : HookInfo) (hk : e.Kind = .relationChanged)
    (fs : List (String × DiskInfo)) (m : List (String × Int))
    (hdir : d.dir = some fs) (hmem : d.state.Members = some m) :
    d.Write e = (StateDir.mk
      (some (updateKey fs (fileNameOf e.RemoteUnit) ⟨some e.ChangeVersion, false⟩))
      (State.mk d.state.RelationId (some (updateKey m e.RemoteUnit e.ChangeVersion))
        ""), none) := by
  cases e with
  | mk kind erid eunit ecv =>
    simp only at hk
    subst hk
    simp [StateDir.Write, hdir, hmem]

theorem write_departed_eq (d : StateDir) (e : HookInfo) (hk : e.Kind = .relationDeparted) :
    d.Write e = (StateDir.mk
      (d.dir.map (fun fs => eraseKey fs (fileNameOf e.RemoteUnit)))
      (State.mk d.state.RelationId
        (d.state.Members.map (fun m => eraseKey m e.RemoteUnit))
        d.state.ChangedPending), none) := by
  cases e with
  | mk kind erid eunit ecv =>
    simp only at hk
    subst hk
    simp [StateDir.Write]

theorem write_broken_empty_eq (d : StateDir) (e : HookInfo) (hk : e.Kind = .relationBroken)
    (hdir : d.dir = some []) :
    d.Write e = (StateDir.mk none
      (State.mk d.state.RelationId none d.state.ChangedPending), none) := by
  cases e with
  | mk kind erid eunit ecv =>
    simp only at hk
    subst hk
    simp [StateDir.Write, hdir]

theorem runVW_sim (rid : Int) :
    ∀ (es : List HookInfo) (p : PState) (d : StateDir) (p' : PState),
    SimC4 rid p d → protoRun rid p es = some p' →
    ∃ d', runVW d es = .ok d' ∧ SimC4 rid p' d' := by
  intro es
  induction es with
  | nil =>
    intro p d p' hsim hrun
    simp only [protoRun, Option.some_inj] at hrun
    exact ⟨d, rfl, hrun ▸ hsim⟩
  | cons e rest ih =>
    intro p d p' hsim hrun
    simp only [protoRun] at hrun
    cases hstep : protoStep rid p e with
    | none => rw [hstep] at hrun; cases hrun
    | some p1 =>
      rw [hstep] at hrun
      by_cases hid : e.RelationId = rid
      case neg =>
        rw [show protoStep rid p e = none by simp [protoStep, hid]] at hstep
        cases hstep
      case pos =>
      cases p with
      | torn =>
        rw [show protoStep rid .torn e = none by simp [protoStep]] at hstep
        cases hstep
      | active mem pend =>
        rcases hsim with ⟨fs, m, hdir, hmem, hrid, hnd, hlk, hpendInv, hfs⟩
        have hid2 : e.RelationId = d.state.RelationId := by rw [hid, hrid]
        cases hkind : e.Kind with
        | relationBroken =>
          have hme : mem = [] := by
            by_contra hne
            rw [show protoStep rid (.active mem pend) e = none by
              simp [protoStep, hid, hkind, hne]] at hstep
            cases hstep
          subst hme
          have hp1 : p1 = .torn := by
            rw [show protoStep rid (.active [] pend) e = some .torn by
              simp [protoStep, hid, hkind]] at hstep
            exact Option.some_inj.1 hstep.symm
          subst hp1
          have hmnil : m = [] := by
            apply eq_nil_of_listLookup_none
            intro k
            have := hlk k
            simp only [List.not_mem_nil, iff_false, Option.not_isSome_iff_eq_none] at this
            exact this
          subst hmnil
          have hfsnil : fs = [] := by
            apply eq_nil_of_listLookup_none
            intro k
            cases hx : listLookup fs k with
            | none => rfl
            | some y =>
              rcases hfs k (by simp [hx]) with ⟨u, hu, _⟩
              simp [listLookup] at hu
          subst hfsnil
          have hval : d.state.Validate e = .ok () := by
            simp [State.Validate, hid2, hmem, hkind]
          have hw := write_broken_empty_eq d e hkind hdir
          refine ?_
          rcases ih .torn _ p' trivial hrun with ⟨d', hd', hs'⟩
          exact ⟨d', by simp only [runVW, hval, hw]; exact hd', hs'⟩
        | relationJoined =>
          cases pend with
          | some u0 =>
            rw [show protoStep rid (.active mem (some u0)) e = none by
              simp [protoStep, hid, hkind]] at hstep
            cases hstep
          | none =>
            have hnm : ¬e.RemoteUnit ∈ mem := by
              by_contra hin
              rw [show protoStep rid (.active mem none) e = none by
                simp [protoStep, hid, hkind, hin]] at hstep
              cases hstep
            have hp1 : p1 = .active (e.RemoteUnit :: mem) (some e.RemoteUnit) := by
              rw [show protoStep rid (.active mem none) e =
                  some (.active (e.RemoteUnit :: mem) (some e.RemoteUnit)) by
                simp [protoStep, hid, hkind, hnm]] at hstep
              exact Option.some_inj.1 hstep.symm
            subst hp1
            have hnl : ¬(listLookup m e.RemoteUnit).isSome := by
              rw [hlk e.RemoteUnit]
              exact hnm
            have hval : d.state.Validate e = .ok () := by
              simp [State.Validate, hid2, hmem, hkind, hpendInv, hnl]
            have hw := write_joined_eq d e hkind fs m hdir hmem
            have hsim' : SimC4 rid (.active (e.RemoteUnit :: mem) (some e.RemoteUnit))
                (StateDir.mk
                  (some (updateKey fs (fileNameOf e.RemoteUnit) ⟨some e.ChangeVersion, true⟩))
                  (State.mk d.state.RelationId
                    (some (updateKey m e.RemoteUnit e.ChangeVersion)) e.RemoteUnit)) := by
              refine ⟨_, _, rfl, rfl, hrid, List.nodup_cons.2 ⟨hnm, hnd⟩, ?_, ⟨rfl,
                List.mem_cons_self _ _⟩, ?_⟩
              · intro w
                by_cases hw2 : w = e.RemoteUnit
                · subst hw2
                  simp [listLookup_updateKey_self]
                · rw [listLookup_updateKey_ne m e.RemoteUnit w e.ChangeVersion hw2]
                  simp only [List.mem_cons]
                  rw [hlk w]
                  exact ⟨fun h => Or.inr h, fun h => h.elim (fun hh => absurd hh hw2) id⟩
              · intro name hname
                by_cases hn2 : name = fileNameOf e.RemoteUnit
                · exact ⟨e.RemoteUnit, by simp [listLookup_updateKey_self], hn2⟩
                · rw [listLookup_updateKey_ne fs (fileNameOf e.RemoteUnit) name _ hn2] at hname
                  rcases hfs name hname with ⟨w, hwl, hwn⟩
                  refine ⟨w, ?_, hwn⟩
                  by_cases hw2 : w = e.RemoteUnit
                  · subst hw2
                    simp [listLookup_updateKey_self]
                  · rw [listLookup_updateKey_ne m e.RemoteUnit w e.ChangeVersion hw2]
                    exact hwl
            rcases ih _ _ p' hsim' hrun with ⟨d', hd', hs'⟩
            exact ⟨d', by simp only [runVW, hval, hw]; exact hd', hs'⟩
        | relationChanged =>
          have hcond : (pend = none ∧ e.RemoteUnit ∈ mem) ∨ pend = some e.RemoteUnit := by
            cases pend with
            | none =>
              by_cases hin : e.RemoteUnit ∈ mem
              · exact Or.inl ⟨rfl, hin⟩
              · rw [show protoStep rid (.active mem none) e = none by
                  simp [protoStep, hid, hkind, hin]] at hstep
                cases hstep
            | some u0 =>
              by_cases hu : e.RemoteUnit = u0
              · exact Or.inr (by rw [hu])
              · rw [show protoStep rid (.active mem (some u0)) e = none by
                  simp [protoStep, hid, hkind, hu]] at hstep
                cases hstep
          have hin : e.RemoteUnit ∈ mem := by
            rcases hcond with ⟨_, hin⟩ | hp0
            · exact hin
            · rw [hp0] at hpendInv
              exact hpendInv.2
          have hp1 : p1 = .active mem none := by
            rcases hcond with ⟨hp0, hin0⟩ | hp0
            · subst hp0
              rw [show protoStep rid (.active mem none) e = some (.active mem none) by
                simp [protoStep, hid, hkind, hin0]] at hstep
              exact Option.some_inj.1 hstep.symm
            · subst hp0
              rw [show protoStep rid (.active mem (some e.RemoteUnit)) e =
                  some (.active mem none) by simp [protoStep, hid, hkind]] at hstep
              exact Option.some_inj.1 hstep.symm
          subst hp1
          have hl : (listLookup m e.RemoteUnit).isSome := (hlk e.RemoteUnit).2 hin
          have hval : d.state.Validate e = .ok () := by
            rcases hcond with ⟨hp0, _⟩ | hp0
            · subst hp0
              simp [State.Validate, hid2, hmem, hkind, hpendInv, hl]
            · rw [hp0] at hpendInv
              by_cases hcp : d.state.ChangedPending = ""
              · simp [State.Validate, hid2, hmem, hkind, hcp, hl]
              · simp [State.Validate, hid2, hmem, hkind, hcp, hpendInv.1.symm]
          have hw := write_changed_eq d e hkind fs m hdir hmem
          have hsim' : SimC4 rid (.active mem none)
              (StateDir.mk
                (some (updateKey fs (fileNameOf e.RemoteUnit) ⟨some e.ChangeVersion, false⟩))
                (State.mk d.state.RelationId
                  (some (updateKey m e.RemoteUnit e.ChangeVersion)) "")) := by
            refine ⟨_, _, rfl, rfl, hrid, hnd, ?_, rfl, ?_⟩
            · intro w
              by_cases hw2 : w = e.RemoteUnit
              · subst hw2
                simp [listLookup_updateKey_self, hin]
              · rw [listLookup_updateKey_ne m e.RemoteUnit w e.ChangeVersion hw2]
                exact hlk w
            · intro name hname
              by_cases hn2 : name = fileNameOf e.RemoteUnit
              · exact ⟨e.RemoteUnit, by simp [listLookup_updateKey_self], hn2⟩
              · rw [listLookup_updateKey_ne fs (fileNameOf e.RemoteUnit) name _ hn2] at hname
                rcases hfs name hname with ⟨w, hwl, hwn⟩
                refine ⟨w, ?_, hwn⟩
                by_cases hw2 : w = e.RemoteUnit
                · subst hw2
                  simp [listLookup_updateKey_self]
                · rw [listLookup_updateKey_ne m e.RemoteUnit w e.ChangeVersion hw2]
                  exact hwl
          rcases ih _ _ p' hsim' hrun with ⟨d', hd', hs'⟩
          exact ⟨d', by simp only [runVW, hval, hw]; exact hd', hs'⟩
        | relationDeparted =>
          cases pend with
          | some u0 =>
            rw [show protoStep rid (.active mem (some u0)) e = none by
              simp [protoStep, hid, hkind]] at hstep
            cases hstep
          | none =>
            have hin : e.RemoteUnit ∈ mem := by
              by_contra hni
              rw [show protoStep rid (.active mem none) e = none by
                simp [protoStep, hid, hkind, hni]] at hstep
              cases hstep
            have hp1 : p1 = .active (mem.erase e.RemoteUnit) none := by
              rw [show protoStep rid (.active mem none) e =
                  some (.active (mem.erase e.RemoteUnit) none) by
                simp [protoStep, hid, hkind, hin]] at hstep
              exact Option.some_inj.1 hstep.symm
            subst hp1
            have hl : (listLookup m e.RemoteUnit).isSome := (hlk e.RemoteUnit).2 hin
            have hval : d.state.Validate e = .ok () := by
              simp [State.Validate, hid2, hmem, hkind, hpendInv, hl]
            have hw := write_departed_eq d e hkind
            rw [hdir, hmem] at hw
            simp only [Option.map_some'] at hw
            have hsim' : SimC4 rid (.active (mem.erase e.RemoteUnit) none)
                (StateDir.mk (some (eraseKey fs (fileNameOf e.RemoteUnit)))
                  (State.mk d.state.RelationId (some (eraseKey m e.RemoteUnit))
                    d.state.ChangedPending)) := by
              refine ⟨_, _, rfl, rfl, hrid, hnd.erase _, ?_, hpendInv, ?_⟩
              · intro w
                by_cases hw2 : w = e.RemoteUnit
                · subst hw2
                  rw [listLookup_eraseKey_self]
                  simp only [Option.isSome_none, Bool.false_eq_true, false_iff]
                  intro hcontra
                  exact absurd ((hnd.mem_erase_iff).1 hcontra).1 (by simp)
                · rw [listLookup_eraseKey_ne m e.RemoteUnit w hw2,
                    List.mem_erase_of_ne hw2]
                  exact hlk w
              · intro name hname
                by_cases hn2 : name = fileNameOf e.RemoteUnit
                · rw [hn2, listLookup_eraseKey_self] at hname
                  cases hname
                · rw [listLookup_eraseKey_ne fs (fileNameOf e.RemoteUnit) name hn2] at hname
                  rcases hfs name hname with ⟨w, hwl, hwn⟩
                  have hw2 : w ≠ e.RemoteUnit := by
                    intro hh
                    rw [hh] at hwn
                    exact hn2 hwn
                  refine ⟨w, ?_, hwn⟩
                  rw [listLookup_eraseKey_ne m e.RemoteUnit w hw2]
                  exact hwl
            rcases ih _ _ p' hsim' hrun with ⟨d', hd', hs'⟩
            exact ⟨d', by simp only [runVW, hval, hw]; exact hd', hs'⟩

/-- C4: for every sequence of events valid under the §4.1 protocol, applying
Validate followed by Write for each event in order, starting from a fresh
ensured state directory, never returns a validation error at any step (in
fact the whole run succeeds). -/
theorem c4_protocol_never_invalid (rid : Int) (es : List HookInfo)
    (h : ProtocolValid rid es) :
    (runVW (startDir rid) es).isInvalidB = false := by
  have hsome : (protoRun rid (.active [] none) es).isSome = true := h
  rcases Option.isSome_iff_exists.1 hsome with ⟨p', hp'⟩
  have hsim : SimC4 rid (.active [] none) (startDir rid) := by
    refine ⟨[], [], rfl, rfl, rfl, List.nodup_nil, ?_, rfl, ?_⟩
    · intro u
      simp [listLookup]
    · intro name hname
      simp [listLookup] at hname
  rcases runVW_sim rid es _ _ p' hsim hp' with ⟨d', hd', _⟩
  rw [hd']
  rfl

/-- Witness for C4: the §8 scenario — join, changed, departed, teardown for
`wordpress/0` on relation 7 — is protocol-valid and runs with no validation
error. -/
theorem c4_protocol_never_invalid_w :
    ProtocolValid 7 [⟨.relationJoined, 7, "wordpress/0", 1⟩,
      ⟨.relationChanged, 7, "wordpress/0", 2⟩,
      ⟨.relationDeparted, 7, "wordpress/0", 0⟩,
      ⟨.relationBroken, 7, "", 0⟩] ∧
    (runVW (startDir 7) [⟨.relationJoined, 7, "wordpress/0", 1⟩,
      ⟨.relationChanged, 7, "wordpress/0", 2⟩,
      ⟨.relationDeparted, 7, "wordpress/0", 0⟩,
      ⟨.relationBroken, 7, "", 0⟩]).isInvalidB = false :=
  ⟨by decide, c4_protocol_never_invalid 7 _ (by decide)⟩

/-! ### Unit names round-trip through record file names -/


theorem splitAtFirstSlash_sound :
    ∀ (cs s n : List Char), splitAtFirstSlash cs = some (s, n) →
    cs = s ++ '/' :: n ∧ '/' ∉ s := by
  intro cs
  induction cs with
  | nil =>
    intro s n h
    simp [splitAtFirstSlash] at h
  | cons c cs' ih =>
    intro s n h
    by_cases hc : c = '/'
    · simp only [splitAtFirstSlash, hc, if_true, Option.some_inj] at h
      rw [Prod.ext_iff] at h
      simp only at h
      rw [← h.1, ← h.2, hc]
      exact ⟨rfl, by simp⟩
    · simp only [splitAtFirstSlash, hc, if_false] at h
      cases hin : splitAtFirstSlash cs' with
      | none => rw [hin] at h; cases h
      | some q =>
        rw [hin] at h
        simp only [Option.map_some', Option.some_inj] at h
        rw [Prod.ext_iff] at h
        simp only at h
        rcases ih q.1 q.2 (by rw [hin]) with ⟨hcs, hs⟩
        rw [← h.1, ← h.2]
        constructor
        · rw [hcs]
          simp
        · simp only [List.mem_cons, not_or]
          exact ⟨fun hh => hc hh.symm, hs⟩

theorem wf_split (u : String) (h : wellFormedUnit u = true) :
    ∃ s n, u.data = s ++ '/' :: n ∧ '/' ∉ s ∧ n ≠ [] ∧ n.all isDigitChar = true ∧
      digitsValue n ≤ maxInt64 := by
  rw [wellFormedUnit, wellFormedUnitL] at h
  cases hsp : splitAtFirstSlash u.data with
  | none => rw [hsp] at h; cases h
  | some q =>
    rw [hsp] at h
    simp only [Bool.and_eq_true, Bool.not_eq_true', decide_eq_true_eq] at h
    rcases splitAtFirstSlash_sound u.data q.1 q.2 hsp with ⟨hcs, hs⟩
    exact ⟨q.1, q.2, hcs, hs, by simpa [List.isEmpty_iff] using h.1.1, h.1.2, h.2⟩

theorem wf_ne_empty (u : String) (h : wellFormedUnit u = true) : u ≠ "" := by
  rcases wf_split u h with ⟨s, n, hcs, -, -, -, -⟩
  intro hu
  rw [hu] at hcs
  simp at hcs

theorem replaceFirstSlash_append (s n : List Char) (hs : '/' ∉ s) :
    replaceFirstSlash (s ++ '/' :: n) = s ++ '-' :: n := by
  induction s with
  | nil => simp [replaceFirstSlash]
  | cons c s' ih =>
    simp only [List.mem_cons, not_or] at hs
    have hc : ¬c = '/' := fun hh => hs.1 hh.symm
    simp only [List.cons_append, List.append_eq, replaceFirstSlash, hc, if_false]
    rw [ih hs.2]

theorem no_dash_of_digits (n : List Char) (h : n.all isDigitChar = true) : '-' ∉ n := by
  intro hm
  have := List.all_eq_true.1 h '-' hm
  exact absurd this (by decide)

theorem splitAtLastDash_of_no_dash (cs : List Char) (h : '-' ∉ cs) :
    splitAtLastDash cs = none := by
  induction cs with
  | nil => rfl
  | cons c cs' ih =>
    simp only [List.mem_cons, not_or] at h
    have hc : ¬c = '-' := fun hh => h.1 hh.symm
    simp only [splitAtLastDash, ih h.2, hc, if_false]

theorem splitAtLastDash_append (s n : List Char) (hn : '-' ∉ n) :
    splitAtLastDash (s ++ '-' :: n) = some (s, n) := by
  induction s with
  | nil =>
    simp only [List.nil_append, splitAtLastDash, splitAtLastDash_of_no_dash n hn, if_pos]
  | cons c s' ih =>
    simp only [List.cons_append, List.append_eq, splitAtLastDash, ih]

theorem goAtoiL_digits (n : List Char) (hne : n ≠ []) (hd : n.all isDigitChar = true)
    (hb : digitsValue n ≤ maxInt64) : goAtoiL n = some ((digitsValue n : Nat) : Int) := by
  cases n with
  | nil => exact absurd rfl hne
  | cons c rest =>
    have hc : isDigitChar c = true :=
      List.all_eq_true.1 hd c (List.mem_cons_self c rest)
    have hp : parseDigits (c :: rest) = some (digitsValue (c :: rest)) := by
      rw [parseDigits, if_neg (by simp), if_pos hd]
    rw [show goAtoiL (c :: rest) = atoiPos (parseDigits (c :: rest)) by
      simp [goAtoiL, isDigit_ne_dash hc, isDigit_ne_plus hc]]
    rw [hp]
    simp only [atoiPos]
    rw [if_pos hb]

theorem wf_fileName_split (u : String) (h : wellFormedUnit u = true) :
    ∃ s n, (fileNameOf u).data = s ++ '-' :: n ∧
      splitAtLastDash (fileNameOf u).data = some (s, n) ∧
      goAtoiL n = some ((digitsValue n : Nat) : Int) ∧
      (⟨s ++ '/' :: n⟩ : String) = u := by
  rcases wf_split u h with ⟨s, n, hcs, hs, hne, hdig, hb⟩
  have hdata : (fileNameOf u).data = s ++ '-' :: n := by
    show (replaceFirstSlash u.data) = s ++ '-' :: n
    rw [hcs, replaceFirstSlash_append s n hs]
  refine ⟨s, n, hdata, ?_, goAtoiL_digits n hne hdig hb, ?_⟩
  · rw [hdata, splitAtLastDash_append s n (no_dash_of_digits n hdig)]
  · cases u with
    | mk data =>
      simp only at hcs
      rw [hcs]

theorem unitOfName_fileNameOf (u : String) (h : wellFormedUnit u = true) :
    unitOfName (fileNameOf u) = u := by
  rcases wf_fileName_split u h with ⟨s, n, hdata, hsp, hat, hmk⟩
  rw [unitOfName, hsp]
  exact hmk

theorem fileNameOf_inj (u1 u2 : String) (h1 : wellFormedUnit u1 = true)
    (h2 : wellFormedUnit u2 = true) (h : fileNameOf u1 = fileNameOf u2) : u1 = u2 := by
  rw [← unitOfName_fileNameOf u1 h1, ← unitOfName_fileNameOf u2 h2, h]

/-! ### C3: the round-trip invariant between cache and disk -/

theorem mem_of_mem_eraseKey {κ α : Type} [DecidableEq κ]
    {l : List (κ × α)} {k : κ} {q : κ × α} :
    q ∈ eraseKey l k → q ∈ l := by
  induction l with
  | nil =>
    intro h
    simp [eraseKey] at h
  | cons p rest ih =>
    intro h
    by_cases hp : p.1 = k
    · simp only [eraseKey, hp, if_true] at h
      exact List.mem_cons_of_mem _ (ih h)
    · simp only [eraseKey, hp, if_false, List.mem_cons] at h
      rcases h with h | h
      · simp [h]
      · exact List.mem_cons_of_mem _ (ih h)

theorem keysNodup_eraseKey {κ α : Type} [DecidableEq κ]
    (l : List (κ × α)) (k : κ) (h : keysNodup l) : keysNodup (eraseKey l k) := by
  induction l with
  | nil => simp [eraseKey, keysNodup]
  | cons p rest ih =>
    simp only [keysNodup, List.map_cons, List.nodup_cons] at h
    by_cases hp : p.1 = k
    · simp only [eraseKey, hp, if_true]
      exact ih h.2
    · simp only [eraseKey, hp, if_false, keysNodup, List.map_cons, List.nodup_cons]
      refine ⟨?_, ih h.2⟩
      intro hmem
      rcases List.mem_map.1 hmem with ⟨q, hq, hq1⟩
      exact h.1 (List.mem_map.2 ⟨q, mem_of_mem_eraseKey hq, hq1⟩)


theorem rtinv_step (rid : Int) (d d' : StateDir) (e : HookInfo)
    (hwf : wellFormedUnit e.RemoteUnit = true) (hkb : e.Kind ≠ .relationBroken)
    (hinv : RTInv rid d) (hval : d.state.Validate e = .ok ())
    (hw : d.Write e = (d', none)) : RTInv rid d' := by
  rcases hinv with ⟨fs, m, hdir, hmem, hrid, hndf, hndm, hd1, hd2, hpc⟩
  have hid : e.RelationId = d.state.RelationId := by
    by_contra hne
    simp [State.Validate, hne] at hval
  have hune : e.RemoteUnit ≠ "" := wf_ne_empty _ hwf
  cases hkind : e.Kind with
  | relationBroken => exact absurd hkind hkb
  | relationJoined =>
    have hcp : d.state.ChangedPending = "" := by
      by_contra hne
      simp [State.Validate, hid, hmem, hkind, hne] at hval
    have hnm : listLookup m e.RemoteUnit = none := by
      cases hx : listLookup m e.RemoteUnit with
      | none => rfl
      | some v0 => simp [State.Validate, hid, hmem, hkind, hcp, hx] at hval
    rw [write_joined_eq d e hkind fs m hdir hmem] at hw
    have hd' : d' = StateDir.mk
        (some (updateKey fs (fileNameOf e.RemoteUnit) ⟨some e.ChangeVersion, true⟩))
        (State.mk d.state.RelationId
          (some (updateKey m e.RemoteUnit e.ChangeVersion)) e.RemoteUnit) :=
      ((Prod.ext_iff.1 hw).1).symm
    subst hd'
    refine ⟨_, _, rfl, rfl, hrid, keysNodup_updateKey fs _ _ hndf,
      keysNodup_updateKey m _ _ hndm, ?_, ?_, ?_⟩
    · intro w v hwv
      by_cases hwu : w = e.RemoteUnit
      · subst hwu
        rw [listLookup_updateKey_self] at hwv
        rw [Option.some_inj] at hwv
        refine ⟨hwf, ?_⟩
        rw [listLookup_updateKey_self]
        simp [← hwv]
      · rw [listLookup_updateKey_ne m _ _ _ hwu] at hwv
        rcases hd1 w v hwv with ⟨hwfw, hlw⟩
        refine ⟨hwfw, ?_⟩
        have hfn : fileNameOf w ≠ fileNameOf e.RemoteUnit := by
          intro hh
          exact hwu (fileNameOf_inj w e.RemoteUnit hwfw hwf hh)
        rw [listLookup_updateKey_ne fs _ _ _ hfn, hlw, hcp]
        simp only [Option.some_inj]
        have hw1 : decide (w = "") = false := by
          simp [wf_ne_empty w hwfw]
        have hw2 : decide (w = e.RemoteUnit) = false := by simp [hwu]
        rw [hw1, hw2]
    · intro name di hdi
      by_cases hn : name = fileNameOf e.RemoteUnit
      · subst hn
        rw [listLookup_updateKey_self, Option.some_inj] at hdi
        refine ⟨e.RemoteUnit, e.ChangeVersion, hwf, rfl, ?_, ?_⟩
        · rw [listLookup_updateKey_self]
        · rw [← hdi]
          simp
      · rw [listLookup_updateKey_ne fs _ _ _ hn] at hdi
        rcases hd2 name di hdi with ⟨w, v, hwfw, hname, hlw, hdieq⟩
        have hwu : w ≠ e.RemoteUnit := by
          intro hh
          rw [hh] at hname
          exact hn hname
        refine ⟨w, v, hwfw, hname, ?_, ?_⟩
        · rw [listLookup_updateKey_ne m _ _ _ hwu]
          exact hlw
        · rw [hdieq, hcp]
          have hw1 : decide (w = "") = false := by
            simp [wf_ne_empty w hwfw]
          have hw2 : decide (w = e.RemoteUnit) = false := by simp [hwu]
          rw [hw1, hw2]
    · right
      exact ⟨e.ChangeVersion, listLookup_updateKey_self m _ _⟩
  | relationChanged =>
    have hcase : (d.state.ChangedPending = "" ∧
        (listLookup m e.RemoteUnit).isSome = true) ∨
        (d.state.ChangedPending ≠ "" ∧ e.RemoteUnit = d.state.ChangedPending) := by
      by_cases hcp : d.state.ChangedPending = ""
      · left
        refine ⟨hcp, ?_⟩
        cases hx : listLookup m e.RemoteUnit with
        | none => simp [State.Validate, hid, hmem, hkind, hcp, hx] at hval
        | some v0 => rfl
      · right
        refine ⟨hcp, ?_⟩
        by_contra hne
        simp [State.Validate, hid, hmem, hkind, hcp, hne] at hval
    rw [write_changed_eq d e hkind fs m hdir hmem] at hw
    have hd' : d' = StateDir.mk
        (some (updateKey fs (fileNameOf e.RemoteUnit) ⟨some e.ChangeVersion, false⟩))
        (State.mk d.state.RelationId
          (some (updateKey m e.RemoteUnit e.ChangeVersion)) "") :=
      ((Prod.ext_iff.1 hw).1).symm
    subst hd'
    have hflag : ∀ w, w ≠ e.RemoteUnit → wellFormedUnit w = true →
        decide (w = d.state.ChangedPending) = false := by
      intro w hwu hwfw
      rcases hcase with ⟨hcp, -⟩ | ⟨-, hup⟩
      · rw [hcp]
        simp [wf_ne_empty w hwfw]
      · rw [← hup]
        simp [hwu]
    refine ⟨_, _, rfl, rfl, hrid, keysNodup_updateKey fs _ _ hndf,
      keysNodup_updateKey m _ _ hndm, ?_, ?_, Or.inl rfl⟩
    · intro w v hwv
      by_cases hwu : w = e.RemoteUnit
      · subst hwu
        rw [listLookup_updateKey_self, Option.some_inj] at hwv
        refine ⟨hwf, ?_⟩
        rw [listLookup_updateKey_self]
        simp [← hwv, hune]
      · rw [listLookup_updateKey_ne m _ _ _ hwu] at hwv
        rcases hd1 w v hwv with ⟨hwfw, hlw⟩
        refine ⟨hwfw, ?_⟩
        have hfn : fileNameOf w ≠ fileNameOf e.RemoteUnit := by
          intro hh
          exact hwu (fileNameOf_inj w e.RemoteUnit hwfw hwf hh)
        rw [listLookup_updateKey_ne fs _ _ _ hfn, hlw]
        simp only [Option.some_inj]
        rw [hflag w hwu hwfw]
        have hw1 : decide (w = "") = false := by
          simp [wf_ne_empty w hwfw]
        rw [hw1]
    · intro name di hdi
      by_cases hn : name = fileNameOf e.RemoteUnit
      · subst hn
        rw [listLookup_updateKey_self, Option.some_inj] at hdi
        refine ⟨e.RemoteUnit, e.ChangeVersion, hwf, rfl, ?_, ?_⟩
        · rw [listLookup_updateKey_self]
        · rw [← hdi]
          simp [hune]
      · rw [listLookup_updateKey_ne fs _ _ _ hn] at hdi
        rcases hd2 name di hdi with ⟨w, v, hwfw, hname, hlw, hdieq⟩
        have hwu : w ≠ e.RemoteUnit := by
          intro hh
          rw [hh] at hname
          exact hn hname
        refine ⟨w, v, hwfw, hname, ?_, ?_⟩
        · rw [listLookup_updateKey_ne m _ _ _ hwu]
          exact hlw
        · rw [hdieq, hflag w hwu hwfw]
          have hw1 : decide (w = "") = false := by
            simp [wf_ne_empty w hwfw]
          rw [hw1]
  | relationDeparted =>
    have hcp : d.state.ChangedPending = "" := by
      by_contra hne
      simp [State.Validate, hid, hmem, hkind, hne] at hval
    have hl : (listLookup m e.RemoteUnit).isSome = true := by
      cases hx : listLookup m e.RemoteUnit with
      | none => simp [State.Validate, hid, hmem, hkind, hcp, hx] at hval
      | some v0 => rfl
    have hww := write_departed_eq d e hkind
    rw [hdir, hmem] at hww
    simp only [Option.map_some'] at hww
    rw [hww] at hw
    have hd' : d' = StateDir.mk (some (eraseKey fs (fileNameOf e.RemoteUnit)))
        (State.mk d.state.RelationId (some (eraseKey m e.RemoteUnit))
          d.state.ChangedPending) :=
      ((Prod.ext_iff.1 hw).1).symm
    subst hd'
    refine ⟨_, _, rfl, rfl, hrid, keysNodup_eraseKey fs _ hndf,
      keysNodup_eraseKey m _ hndm, ?_, ?_, Or.inl hcp⟩
    · intro w v hwv
      by_cases hwu : w = e.RemoteUnit
      · subst hwu
        rw [listLookup_eraseKey_self] at hwv
        cases hwv
      · rw [listLookup_eraseKey_ne m _ _ hwu] at hwv
        rcases hd1 w v hwv with ⟨hwfw, hlw⟩
        refine ⟨hwfw, ?_⟩
        have hfn : fileNameOf w ≠ fileNameOf e.RemoteUnit := by
          intro hh
          exact hwu (fileNameOf_inj w e.RemoteUnit hwfw hwf hh)
        rw [listLookup_eraseKey_ne fs _ _ hfn]
        exact hlw
    · intro name di hdi
      by_cases hn : name = fileNameOf e.RemoteUnit
      · rw [hn, listLookup_eraseKey_self] at hdi
        cases hdi
      · rw [listLookup_eraseKey_ne fs _ _ hn] at hdi
        rcases hd2 name di hdi with ⟨w, v, hwfw, hname, hlw, hdieq⟩
        have hwu : w ≠ e.RemoteUnit := by
          intro hh
          rw [hh] at hname
          exact hn hname
        refine ⟨w, v, hwfw, hname, ?_, hdieq⟩
        rw [listLookup_eraseKey_ne m _ _ hwu]
        exact hlw

theorem runVW_rtinv (rid : Int) :
    ∀ (es : List HookInfo) (d d' : StateDir),
    (∀ e ∈ es, e.Kind ≠ .relationBroken ∧ wellFormedUnit e.RemoteUnit = true) →
    RTInv rid d → runVW d es = .ok d' → RTInv rid d' := by
  intro es
  induction es with
  | nil =>
    intro d d' _ hinv hrun
    simp only [runVW, RunOutcome.ok.injEq] at hrun
    exact hrun ▸ hinv
  | cons e rest ih =>
    intro d d' hk hinv hrun
    have hke := hk e (List.mem_cons_self e rest)
    simp only [runVW] at hrun
    cases hv : d.state.Validate e with
    | error v => rw [hv] at hrun; cases hrun
    | ok unit0 =>
      rw [hv] at hrun
      cases hwr : d.Write e with
      | mk d1 werr =>
        rw [hwr] at hrun
        cases werr with
        | some w => simp at hrun
        | none =>
          simp only at hrun
          have hinv1 : RTInv rid d1 :=
            rtinv_step rid d d1 e hke.2 hke.1 hinv (by cases unit0; exact hv) hwr
          exact ih d1 d' (fun e2 he2 => hk e2 (List.mem_cons_of_mem _ he2)) hinv1 hrun

/-! ### C3: reloading a good directory reconstructs the cache -/



theorem flagged_atmost_one (P : String) (fs : List (String × DiskInfo))
    (hg : ∀ p ∈ fs, entryGoodFor P p) (hnd : keysNodup fs) :
    fs.countP (fun p => p.2.changedPending) ≤ 1 := by
  induction fs with
  | nil => simp
  | cons p rest ih =>
    simp only [keysNodup, List.map_cons, List.nodup_cons] at hnd
    have hrest := ih (fun q hq => hg q (List.mem_cons_of_mem _ hq)) hnd.2
    cases hf : p.2.changedPending with
    | false => simpa [List.countP_cons, hf] using hrest
    | true =>
      rcases hg p (List.mem_cons_self p rest) with ⟨u, v, hu, hn, hdi⟩
      have hup : u = P := by
        rw [hdi] at hf
        simpa using hf
      have hzero : rest.countP (fun q => q.2.changedPending) = 0 := by
        rw [List.countP_eq_zero]
        intro q hq
        by_contra hqf
        have hqt : q.2.changedPending = true := hqf
        rcases hg q (List.mem_cons_of_mem _ hq) with ⟨u2, v2, hu2, hn2, hdi2⟩
        have hup2 : u2 = P := by
          rw [hdi2] at hqt
          simpa using hqt
        have : q.1 = p.1 := by
          rw [hn2, hn, hup, hup2]
        exact hnd.1 (List.mem_map.2 ⟨q, hq, this⟩)
      simp [List.countP_cons, hf, hzero]

theorem loadEntries_good (P : String) :
    ∀ (fs : List (String × DiskInfo)) (acc : List (String × Int)) (pend : String),
    (∀ p ∈ fs, entryGoodFor P p) →
    (pend = "" ∨ ∀ p ∈ fs, p.2.changedPending = false) →
    fs.countP (fun p => p.2.changedPending) ≤ 1 →
    loadEntries fs acc pend =
      .ok (loadFold fs acc, if fs.any (fun p => p.2.changedPending) then P else pend) := by
  intro fs
  induction fs with
  | nil =>
    intro acc pend _ _ _
    simp [loadEntries, loadFold]
  | cons p rest ih =>
    intro acc pend hg hsafe hcount
    rcases hg p (List.mem_cons_self p rest) with ⟨u, v, hu, hn, hdi⟩
    rcases wf_fileName_split u hu with ⟨s, n, hdata, hsp, hat, hmk⟩
    cases p with
    | mk name info =>
      simp only at hn hdi
      have hsp2 : splitAtLastDash name.data = some (s, n) := by
        rw [hn]
        exact hsp
      have hcv : info.changeVersion = some v := by rw [hdi]
      have hstep : loadEntries ((name, info) :: rest) acc pend =
          if info.changedPending then
            (if pend ≠ "" then .error (.duplicatePending pend u)
             else loadEntries rest (updateKey acc u v) u)
          else loadEntries rest (updateKey acc u v) pend := by
        simp only [loadEntries, hsp2, hat, hcv]
        rw [hmk]
      have hfold : loadFold ((name, info) :: rest) acc =
          loadFold rest (updateKey acc u v) := by
        simp only [loadFold, List.foldl_cons]
        have hun : unitOfName name = u := by
          rw [hn]
          exact unitOfName_fileNameOf u hu
        rw [hun, hcv]
        rfl
      have hflag : info.changedPending = decide (u = P) := by rw [hdi]
      cases hf : info.changedPending with
      | true =>
        have hup : u = P := by
          rw [hflag] at hf
          simpa using hf
        have hpend : pend = "" := by
          rcases hsafe with hp0 | hall
          · exact hp0
          · have := hall (name, info) (List.mem_cons_self _ _)
            simp only at this
            rw [this] at hf
            cases hf
        have hzero : rest.countP (fun q => q.2.changedPending) = 0 := by
          simp only [List.countP_cons, hf, if_true] at hcount
          omega
        have hallrest : ∀ q ∈ rest, q.2.changedPending = false := by
          intro q hq
          have := List.countP_eq_zero.1 hzero q hq
          simpa using this
        have hne : u ≠ "" := wf_ne_empty u hu
        rw [hstep, hf, if_pos rfl, if_neg (by simp [hpend]),
          ih (updateKey acc u v) u (fun q hq => hg q (List.mem_cons_of_mem _ hq))
            (Or.inr hallrest) (by omega)]
        have hanyr : rest.any (fun q => q.2.changedPending) = false := by
          rw [List.any_eq_false]
          intro q hq
          simp [hallrest q hq]
        rw [hanyr]
        simp only [List.any_cons, hf, Bool.true_or, if_true, hfold]
        rw [hup]
        simp
      | false =>
        have hcount2 : rest.countP (fun q => q.2.changedPending) ≤ 1 := by
          simp only [List.countP_cons, hf] at hcount
          omega
        have hsafe2 : pend = "" ∨ ∀ q ∈ rest, q.2.changedPending = false := by
          rcases hsafe with hp0 | hall
          · exact Or.inl hp0
          · exact Or.inr (fun q hq => hall q (List.mem_cons_of_mem _ hq))
        rw [hstep, hf, if_neg (by simp),
          ih (updateKey acc u v) pend (fun q hq => hg q (List.mem_cons_of_mem _ hq))
            hsafe2 hcount2]
        simp only [List.any_cons, hf, Bool.false_or, hfold]

theorem loadFold_lookup_notin :
    ∀ (fs : List (String × DiskInfo)) (acc : List (String × Int)) (w : String),
    (∀ p ∈ fs, unitOfName p.1 ≠ w) →
    listLookup (loadFold fs acc) w = listLookup acc w := by
  intro fs
  induction fs with
  | nil =>
    intro acc w _
    rfl
  | cons p rest ih =>
    intro acc w h
    have hp := h p (List.mem_cons_self p rest)
    simp only [loadFold, List.foldl_cons]
    rw [show ∀ a, List.foldl
        (fun (a : List (String × Int)) (q : String × DiskInfo) =>
          updateKey a (unitOfName q.1) (q.2.changeVersion.getD 0)) a rest =
        loadFold rest a from fun a => rfl]
    rw [ih _ w (fun q hq => h q (List.mem_cons_of_mem _ hq)),
      listLookup_updateKey_ne acc _ _ _ (fun hh => hp hh.symm)]

theorem loadFold_lookup_in (P : String) :
    ∀ (fs : List (String × DiskInfo)) (acc : List (String × Int)) (w : String) (v : Int),
    keysNodup fs → (∀ p ∈ fs, entryGoodFor P p) →
    wellFormedUnit w = true →
    (fileNameOf w, (⟨some v, decide (w = P)⟩ : DiskInfo)) ∈ fs →
    listLookup (loadFold fs acc) w = some v := by
  intro fs
  induction fs with
  | nil =>
    intro acc w v _ _ _ hmem
    simp at hmem
  | cons p rest ih =>
    intro acc w v hnd hg hw hmem
    simp only [keysNodup, List.map_cons, List.nodup_cons] at hnd
    rcases List.mem_cons.1 hmem with hmem | hmem
    · have hp1 : p.1 = fileNameOf w := congrArg Prod.fst hmem.symm
      have hcv : p.2.changeVersion.getD 0 = v := by
        rw [show p.2 = (⟨some v, decide (w = P)⟩ : DiskInfo) from congrArg Prod.snd hmem.symm]
        rfl
      have hrest : ∀ q ∈ rest, unitOfName q.1 ≠ w := by
        intro q hq hqw
        rcases hg q (List.mem_cons_of_mem _ hq) with ⟨u2, v2, hu2, hn2, -⟩
        have : u2 = w := by
          rw [← hqw, hn2, unitOfName_fileNameOf u2 hu2]
        rw [this] at hn2
        have : q.1 = p.1 := by rw [hn2, hp1]
        exact hnd.1 (List.mem_map.2 ⟨q, hq, this⟩)
      simp only [loadFold, List.foldl_cons]
      rw [show ∀ a, List.foldl
          (fun (a : List (String × Int)) (q : String × DiskInfo) =>
            updateKey a (unitOfName q.1) (q.2.changeVersion.getD 0)) a rest =
          loadFold rest a from fun a => rfl]
      rw [loadFold_lookup_notin rest _ w hrest, hp1, unitOfName_fileNameOf w hw, hcv,
        listLookup_updateKey_self]
    · have hp1 : p.1 ≠ fileNameOf w := by
        intro hh
        apply hnd.1
        exact List.mem_map.2 ⟨_, hmem, by rw [hh]⟩
      simp only [loadFold, List.foldl_cons]
      rw [show ∀ a, List.foldl
          (fun (a : List (String × Int)) (q : String × DiskInfo) =>
            updateKey a (unitOfName q.1) (q.2.changeVersion.getD 0)) a rest =
          loadFold rest a from fun a => rfl]
      exact ih _ w v hnd.2 (fun q hq => hg q (List.mem_cons_of_mem _ hq)) hw hmem

theorem rtinv_reload (rid : Int) (d : StateDir) (hinv : RTInv rid d) :
    reloadEquiv rid d = true := by
  rcases hinv with ⟨fs, m, hdir, hmem, hrid, hndf, hndm, hd1, hd2, hpc⟩
  have hg : ∀ p ∈ fs, entryGoodFor d.state.ChangedPending p := by
    intro p hp
    have hlk : listLookup fs p.1 = some p.2 := listLookup_eq_some_of_mem hndf hp
    rcases hd2 p.1 p.2 hlk with ⟨u, v, hu, hn, hlm, hdi⟩
    exact ⟨u, v, hu, hn, hdi⟩
  have hcount := flagged_atmost_one _ fs hg hndf
  have happ := loadEntries_good d.state.ChangedPending fs [] "" hg (Or.inl rfl) hcount
  have hpR : (if fs.any (fun p => p.2.changedPending) then d.state.ChangedPending
      else "") = d.state.ChangedPending := by
    rcases hpc with hcp | ⟨v, hlkP⟩
    · rw [hcp]
      simp
    · rcases hd1 _ v hlkP with ⟨hwfP, hlfs⟩
      have hany : fs.any (fun p => p.2.changedPending) = true := by
        rw [List.any_eq_true]
        refine ⟨_, mem_of_listLookup_eq_some hlfs, ?_⟩
        simp
      rw [hany]
      simp
  have hmemEq : ∀ w, listLookup (loadFold fs []) w = listLookup m w := by
    intro w
    cases hx : listLookup m w with
    | some v =>
      rcases hd1 w v hx with ⟨hwfw, hlf⟩
      exact loadFold_lookup_in _ fs [] w v hndf hg hwfw (mem_of_listLookup_eq_some hlf)
    | none =>
      rw [loadFold_lookup_notin fs [] w ?_]
      · rfl
      · intro p hp hpw
        have hlk : listLookup fs p.1 = some p.2 := listLookup_eq_some_of_mem hndf hp
        rcases hd2 p.1 p.2 hlk with ⟨u, v2, hu, hn, hlm, -⟩
        have huw : u = w := by rw [← hpw, hn, unitOfName_fileNameOf u hu]
        rw [huw] at hlm
        rw [hlm] at hx
        cases hx
  have hread : ReadStateDir (mkRoot rid d.dir) rid =
      .ok ⟨some fs, ⟨rid, some (loadFold fs []), d.state.ChangedPending⟩⟩ := by
    rw [hdir]
    simp only [mkRoot, ReadStateDir]
    rw [show listLookup [(goItoa rid, RootEntry.subdir fs)] (goItoa rid) =
        some (RootEntry.subdir fs) by simp [listLookup]]
    simp only [readStateDirAux]
    rw [happ, hpR]
    rfl
  unfold reloadEquiv
  rw [hread]
  simp only [State.equivB, Bool.and_eq_true]
  refine ⟨⟨?_, ?_⟩, ?_⟩
  · simp [hrid]
  · simp
  · rw [hmem]
    simp only [membersEquivB]
    rw [Bool.and_eq_true]
    constructor
    · rw [List.all_eq_true]
      intro p hp
      simp [hmemEq p.1]
    · rw [List.all_eq_true]
      intro p hp
      simp [hmemEq p.1]

/-- Counterexample to C3 as stated: writing "joined" for `a/0` and then
"joined" for `a/1` through a fresh ensured state directory succeeds at every
write, but both record files carry the changed-pending flag, so reloading
from the same root errors instead of reproducing the cached state. -/
theorem c3_counterexample :
    (startDir 0).Write ⟨.relationJoined, 0, "a/0", 1⟩ =
      (⟨some [("a-0", ⟨some 1, true⟩)], ⟨0, some [("a/0", 1)], "a/0"⟩⟩, none) ∧
    (StateDir.mk (some [("a-0", ⟨some 1, true⟩)]) ⟨0, some [("a/0", 1)], "a/0"⟩).Write
        ⟨.relationJoined, 0, "a/1", 1⟩ =
      (⟨some [("a-0", ⟨some 1, true⟩), ("a-1", ⟨some 1, true⟩)],
        ⟨0, some [("a/0", 1), ("a/1", 1)], "a/1"⟩⟩, none) ∧
    isErrorB (ReadStateDir
      (mkRoot 0 (some [("a-0", ⟨some 1, true⟩), ("a-1", ⟨some 1, true⟩)])) 0) = true := by
  decide

/-- C3 as amended: for every sequence of joined/changed/departed events with
well-formed `service/number` unit names, each validated successfully against
the current cached state and then successfully written (after Ensure),
discarding the in-memory `StateDir` and reloading via `ReadStateDir` from
the same root path and relation id yields a relation state equal to the
cached one: same relation id, same members map contents, same
changed-pending unit. -/
theorem c3_roundtrip (rid : Int) (es : List HookInfo) (d' : StateDir)
    (hk : ∀ e ∈ es, e.Kind ≠ .relationBroken ∧ wellFormedUnit e.RemoteUnit = true)
    (hrun : runVW (startDir rid) es = .ok d') :
    reloadEquiv rid d' = true := by
  have hinv0 : RTInv rid (startDir rid) := by
    refine ⟨[], [], rfl, rfl, rfl, ?_, ?_, ?_, ?_, Or.inl rfl⟩
    · simp [keysNodup]
    · simp [keysNodup]
    · intro u v h
      simp [listLookup] at h
    · intro name di h
      simp [listLookup] at h
  exact rtinv_reload rid d' (runVW_rtinv rid es (startDir rid) d' hk hinv0 hrun)

/-- Witness for the amended C3: the join-then-changed run for `wordpress/0`
on relation 7 reloads to a state equal to the cached one. -/
theorem c3_roundtrip_w :
    reloadEquiv 7 (StateDir.mk (some [("wordpress-0", ⟨some 2, false⟩)])
      ⟨7, some [("wordpress/0", 2)], ""⟩) = true :=
  c3_roundtrip 7 [⟨.relationJoined, 7, "wordpress/0", 1⟩,
      ⟨.relationChanged, 7, "wordpress/0", 2⟩]
    (StateDir.mk (some [("wordpress-0", ⟨some 2, false⟩)])
      ⟨7, some [("wordpress/0", 2)], ""⟩)
    (by decide) (by decide)

end Relation
